import Mathlib

/-!
# World-Graph Synchronization & Navigation Engine — verification development

Shallow embedding of the world-graph engine of `world_explorer`
(`src/lib/gameplay/applyGameTurn.ts` and `src/lib/llm/navigationTools.ts`).

Modelling conventions:
* UUIDs (`randomUUID()`) are modelled as natural numbers drawn from a
  monotone counter that is threaded explicitly through every function that
  mints identifiers; collision-freedom of `randomUUID` becomes the
  hypothesis that every identifier already in use is smaller than the
  current counter value.
* The JS `Record<string, LocationNode>` is modelled as an association list
  `List (Nat × LocationNode)` in insertion order (JS objects with
  non-numeric keys enumerate in insertion order); `graph[id] = node`
  becomes `setGraph` (replace if the key is present, else append), and
  `Object.values(graph)` becomes `Graph.values`.
* JS `string | null | undefined` fields become `Option String`; the JS
  truthiness idiom `a || b` on strings becomes `strOr` (empty string and
  `null`/`undefined` are both falsy).
* In-place mutation of node objects becomes re-reading the node from the
  graph by its id and storing the updated copy; this is observably
  equivalent because every node reference the TypeScript code holds is the
  object stored in the graph under its own id.
* Numeric similarity scores (`findLocationByName`) are modelled as exact
  rationals.
* `new Date().toISOString()` is modelled by an explicit `now : String`
  parameter.
-/

namespace WorldExplorer

/-- JS `s.toLowerCase()`, modelled characterwise so that the kernel can
evaluate it on literals. -/
def toLowerStr (s : String) : String := ⟨s.data.map Char.toLower⟩

/-- JS `s.trim()`: drop leading and trailing whitespace, modelled
characterwise so that the kernel can evaluate it on literals. -/
def trimStr (s : String) : String :=
  ⟨((s.data.dropWhile Char.isWhitespace).reverse.dropWhile Char.isWhitespace).reverse⟩

/-- `normalize` from `applyGameTurn.ts`: `value.trim().toLowerCase()`. -/
def normalize (value : String) : String := toLowerStr (trimStr value)

/-- The JS string-truthiness operator `a || b` restricted to strings:
the empty string is falsy. `null`/`undefined` operands are first collapsed
to `""` via `Option.getD ""`. -/
def strOr (a b : String) : String := if a = "" then b else a

/-- JS `s.includes(sub)`: contiguous-substring test, on character lists. -/
def jsIncludes (s sub : String) : Bool := decide (sub.data <:+: s.data)

/-- JS `s.startsWith(sub)`, on character lists. -/
def jsStartsWith (s sub : String) : Bool := decide (sub.data <+: s.data)

/-- Split a character list at every character satisfying `p` (the empty
pieces between consecutive separators included). -/
def splitChars (p : Char → Bool) : List Char → List (List Char)
  | [] => [[]]
  | c :: rest =>
    let r := splitChars p rest
    if p c then [] :: r
    else
      match r with
      | [] => [[c]]
      | w :: ws => (c :: w) :: ws

/-- JS `s.split(/\s+/)` for an already-trimmed `s` (the only way
`findLocationByName` uses it): the empty string yields `[""]`, a
non-empty trimmed string yields its maximal whitespace-free words. -/
def splitWs (s : String) : List String :=
  if s = "" then [""]
  else ((splitChars Char.isWhitespace s.data).map
    (fun l => (⟨l⟩ : String))).filter (fun w => w ≠ "")

/-- `Connection` from `types/game.ts` (`label?: string` is optional). -/
structure Connection where
  id : Nat
  targetId : Nat
  label : Option String
  bidirectional : Bool
deriving Repr, DecidableEq

/-- `Item` from `types/game.ts`. -/
structure Item where
  id : Nat
  name : String
  description : String
  portable : Bool
  ownerCharacterId : Option Nat
deriving Repr, DecidableEq

/-- `LocationNode` from `types/game.ts`. -/
structure LocationNode where
  id : Nat
  locationName : String
  description : Option String
  mapDescription : Option String
  discovered : Bool
  items : List Item
  connections : List Connection
deriving Repr, DecidableEq

/-- `World.graph : Record<LocationId, LocationNode>` as an association
list in insertion order. -/
abbrev Graph := List (Nat × LocationNode)

/-- `World` from `types/game.ts`. -/
structure World where
  id : Nat
  name : String
  setting : String
  atmosphere : String
  genre : String
  createdAt : String
  updatedAt : String
  entryLocationId : Option Nat
  graph : Graph
  ownerCharacterIds : List Nat
deriving Repr, DecidableEq

/-- `Character` from `types/game.ts` (the fields `applyGameTurn` consumes). -/
structure Character where
  id : Nat
  name : String
  description : String
  inventory : List Item
  currentWorldId : Option Nat
  currentLocationId : Option Nat
  lastSessionFile : Option String
  lastSessionEntryId : Option Nat
deriving Repr, DecidableEq

/-- `ItemDescriptor` from `lib/llm/types.ts`; the `??` defaults applied by
`mergeItems` are kept in the model, so the defaulted fields are `Option`s. -/
structure ItemDescriptor where
  name : String
  description : Option String
  portable : Option Bool
deriving Repr, DecidableEq

/-- `ExitDescriptor` from `lib/llm/types.ts` (`label` nullable,
`bidirectional` defaulted to `true` via `??` in `syncExits`). -/
structure ExitDescriptor where
  name : String
  label : Option String
  bidirectional : Option Bool
deriving Repr, DecidableEq

/-- `LocationPayload` from `lib/llm/types.ts`. -/
structure LocationPayload where
  name : String
  mapDescription : Option String
  description : String
  items : List ItemDescriptor
  exits : List ExitDescriptor
deriving Repr, DecidableEq

/-- `actionSummary` attached to a `SessionEntry` (`types/game.ts`). -/
structure ActionSummary where
  playerMessage : String
  gmResponse : String
  occurredAt : String
  locationId : Option Nat
deriving Repr, DecidableEq

/-- `SessionEntry` from `types/game.ts`; `author` is the literal string
`"player"` or `"gm"`. -/
structure SessionEntry where
  id : Nat
  locationId : Option Nat
  author : String
  message : String
  createdAt : String
  actionSummary : Option ActionSummary
deriving Repr, DecidableEq

/-- `LLMGameTurn` from `lib/llm/types.ts`; `inventoryItems` is
`turn.inventory.items`. -/
structure LLMGameTurn where
  narration : String
  mapDescription : Option String
  suggestions : List String
  playerLocation : LocationPayload
  discoveries : List LocationPayload
  inventoryItems : List ItemDescriptor
deriving Repr, DecidableEq

/-- `graph[id]` (JS property read): first entry with the key. -/
def lookupGraph (g : Graph) (k : Nat) : Option LocationNode :=
  (g.find? (fun kv => kv.1 == k)).map Prod.snd

/-- `graph[id] = node` (JS property write): replace the entry if the key
is present, else append. -/
def setGraph (g : Graph) (k : Nat) (v : LocationNode) : Graph :=
  if g.any (fun kv => kv.1 == k) then
    g.map (fun kv => if kv.1 == k then (k, v) else kv)
  else g ++ [(k, v)]

/-- `Object.values(graph)`. -/
def Graph.values (g : Graph) : List LocationNode := g.map Prod.snd

/-! ## `navigationTools.ts` -/
/-- `LocationInfo` from `navigationTools.ts`. -/
structure LocationInfo where
  id : Nat
  name : String
  mapDescription : String
  distance : Option Nat
deriving Repr, DecidableEq

/-- `LocationMatch` from `navigationTools.ts`; the JS float similarity is
modelled as an exact rational. -/
structure LocationMatch where
  id : Nat
  name : String
  mapDescription : String
  similarity : ℚ
deriving Repr, DecidableEq

/-- `RouteInfo` from `navigationTools.ts`; `pathExists` models the
`exists` field. -/
structure RouteInfo where
  pathExists : Bool
  path : List LocationInfo
  totalDistance : Int
deriving Repr, DecidableEq

/-- `location.mapDescription || location.description || ""`. -/
def descOf (loc : LocationNode) : String :=
  strOr (loc.mapDescription.getD "") (loc.description.getD "")

/-- The per-node similarity computation inside `findLocationByName`
(first applicable branch wins). The JS float arithmetic
`matchedWords.length / words.length * 0.5` is modelled by the exact
rational `mkRat matched (2 * words)`, and the tier constants by
`mkRat k 10`; `scoreLocation_eq_spec` below restates them in `a / b`
form. -/
def scoreLocation (searchTerm : String) (loc : LocationNode) : ℚ :=
  let locationName := toLowerStr loc.locationName
  let description := toLowerStr (descOf loc)
  if locationName = searchTerm then 1
  else if jsStartsWith locationName searchTerm then mkRat 9 10
  else if jsIncludes locationName searchTerm then mkRat 8 10
  else if jsIncludes description searchTerm then mkRat 6 10
  else
    let words := splitWs searchTerm
    let matchedWords := words.filter
      (fun word => jsIncludes locationName word || jsIncludes description word)
    mkRat matchedWords.length (words.length * 2)

/-- Insert a match into a descending-sorted list after every element with
an equal or larger similarity (the unique stable placement). -/
def insertDesc (m : LocationMatch) : List LocationMatch → List LocationMatch
  | [] => [m]
  | x :: xs => if x.similarity < m.similarity then m :: x :: xs else x :: insertDesc m xs

/-- `matches.sort((a, b) => b.similarity - a.similarity)`: the ECMAScript
sort with a consistent comparator is the unique stable descending sort,
realised here as left-to-right insertion. -/
def sortDesc (l : List LocationMatch) : List LocationMatch :=
  l.foldl (fun acc m => insertDesc m acc) []

/-- `findLocationByName` from `navigationTools.ts`. -/
def findLocationByName (rawName : String) (g : Graph) : List LocationMatch :=
  let searchTerm := trimStr (toLowerStr rawName)
  let matchList := (Graph.values g).filterMap (fun loc =>
    let similarity := scoreLocation searchTerm loc
    if mkRat 3 10 < similarity then
      some { id := loc.id, name := loc.locationName, mapDescription := descOf loc,
             similarity := similarity }
    else none)
  (sortDesc matchList).take 5

/-! ### The bounded BFS of `getRoute` and `hasPath`

The `while (queue.length > 0)` loops are modelled by well-founded
recursion; the measure is the queue length plus the number of
connection-target occurrences not yet visited, which strictly decreases
at every iteration — this is exactly the informal argument for why the
TypeScript loops terminate on every finite graph. -/
/-- All connection-target occurrences of a graph (the ids the BFS can
ever enqueue besides the start). -/
def graphTargets (g : Graph) : List Nat :=
  g.flatMap (fun kv => kv.2.connections.map (fun conn => conn.targetId))

/-- Number of target occurrences not yet in `visited`. -/
def unseenCount (g : Graph) (visited : List Nat) : Nat :=
  ((graphTargets g).filter (fun t => !decide (t ∈ visited))).length

/-- A BFS queue entry of `getRoute` (`{ id, path }`). -/
structure RouteEntry where
  id : Nat
  path : List Nat
deriving Repr, DecidableEq

/-- The `for (const conn of node.connections)` body of `getRoute`'s BFS:
returns the found full path (if any) together with the updated queue and
visited set. -/
def routeExpand (toId : Nat) (cur : RouteEntry) :
    List Connection → List RouteEntry → List Nat →
    Option (List Nat) × List RouteEntry × List Nat
  | [], queue, visited => (none, queue, visited)
  | conn :: rest, queue, visited =>
    if conn.targetId = toId then
      (some (cur.path ++ [toId]), queue, visited)
    else if conn.targetId ∈ visited then
      routeExpand toId cur rest queue visited
    else
      routeExpand toId cur rest
        (queue ++ [{ id := conn.targetId, path := cur.path ++ [conn.targetId] }])
        (visited ++ [conn.targetId])

/-- The body of `getRoute`'s `while` loop, on explicit fuel (the fuel
argument makes the recursion structural, so that the kernel can evaluate
the search on concrete graphs; `routeLoopF_congr` below shows the result
is fuel-independent once the fuel exceeds the loop measure, so this
agrees with the unbounded source loop). -/
def routeLoopF (g : Graph) (toId : Nat) :
    Nat → List RouteEntry → List Nat → Option (List Nat)
  | 0, _, _ => none
  | _ + 1, [], _ => none
  | fuel + 1, cur :: rest, visited =>
    if cur.path.length > 7 then routeLoopF g toId fuel rest visited
    else
      match lookupGraph g cur.id with
      | none => routeLoopF g toId fuel rest visited
      | some node =>
        match routeExpand toId cur node.connections rest visited with
        | (some p, _, _) => some p
        | (none, q', vis') => routeLoopF g toId fuel q' vis'

/-- The `while` loop of `getRoute`'s BFS: run the body with enough fuel
that it never runs out (the measure strictly decreases each iteration). -/
def routeLoop (g : Graph) (toId : Nat) (queue : List RouteEntry)
    (visited : List Nat) : Option (List Nat) :=
  routeLoopF g toId (queue.length + unseenCount g visited + 1) queue visited

/-- Helper building a `LocationInfo` record the way `getRoute` does. -/
def mkLocationInfo (loc : LocationNode) : LocationInfo :=
  { id := loc.id, name := loc.locationName, mapDescription := descOf loc, distance := none }

/-- `getRoute` from `navigationTools.ts`. -/
def getRoute (fromId toId : Nat) (g : Graph) : RouteInfo :=
  if fromId = toId then
    match lookupGraph g fromId with
    | some location =>
      { pathExists := true, path := [mkLocationInfo location], totalDistance := 0 }
    | none => { pathExists := true, path := [], totalDistance := 0 }
  else
    match routeLoop g toId [{ id := fromId, path := [fromId] }] [fromId] with
    | some fullPath =>
      { pathExists := true,
        path := (fullPath.filterMap (lookupGraph g)).map mkLocationInfo,
        totalDistance := (fullPath.length : Int) - 1 }
    | none => { pathExists := false, path := [], totalDistance := -1 }

/-- A BFS queue entry of `hasPath` (`{ id, depth }`). -/
structure DepthEntry where
  id : Nat
  depth : Nat
deriving Repr, DecidableEq

/-- The `for (const conn of node.connections)` body of `hasPath`'s BFS.
Note the TypeScript only returns when the target is found at depth
`≥ minDepth`; a target found too shallow falls through to the normal
visited check (and may be enqueued). -/
def hasPathExpand (toId minDepth : Nat) (cur : DepthEntry) :
    List Connection → List DepthEntry → List Nat →
    Bool × List DepthEntry × List Nat
  | [], queue, visited => (false, queue, visited)
  | conn :: rest, queue, visited =>
    if conn.targetId = toId ∧ cur.depth + 1 ≥ minDepth then
      (true, queue, visited)
    else if conn.targetId ∈ visited then
      hasPathExpand toId minDepth cur rest queue visited
    else
      hasPathExpand toId minDepth cur rest
        (queue ++ [{ id := conn.targetId, depth := cur.depth + 1 }])
        (visited ++ [conn.targetId])

/-- The body of `hasPath`'s `while` loop, on explicit fuel (see
`routeLoopF` for why). -/
def hasPathLoopF (g : Graph) (toId minDepth : Nat) :
    Nat → List DepthEntry → List Nat → Bool
  | 0, _, _ => false
  | _ + 1, [], _ => false
  | fuel + 1, cur :: rest, visited =>
    if cur.depth ≥ 7 then hasPathLoopF g toId minDepth fuel rest visited
    else
      match lookupGraph g cur.id with
      | none => hasPathLoopF g toId minDepth fuel rest visited
      | some node =>
        match hasPathExpand toId minDepth cur node.connections rest visited with
        | (true, _, _) => true
        | (false, q', vis') => hasPathLoopF g toId minDepth fuel q' vis'

/-- The `while` loop of `hasPath`'s BFS, with always-sufficient fuel. -/
def hasPathLoop (g : Graph) (toId minDepth : Nat) (queue : List DepthEntry)
    (visited : List Nat) : Bool :=
  hasPathLoopF g toId minDepth (queue.length + unseenCount g visited + 1) queue visited

/-- `hasPath` from `applyGameTurn.ts`: bounded BFS reporting a path of
depth at least `minDepth` (at most 7). -/
def hasPath (g : Graph) (fromId toId minDepth : Nat) : Bool :=
  if fromId = toId then false
  else hasPathLoop g toId minDepth [{ id := fromId, depth := 0 }] [fromId]

/-! ## `applyGameTurn.ts` -/
/-- Modelled from the spec: the constant `DEFAULT_EXIT_LABEL` is imported
from `@/lib/gameplay/constants`, a file not present in the provided
sources. The spec describes it as "a configured generic verb" used when an
exit label is blank (its glossary example of an exit phrase is
"go through"); it is modelled as that fixed non-empty string — none of the
verified properties depend on its exact text, only on it being a fixed
non-blank label. -/
def DEFAULT_EXIT_LABEL : String := "go through"

/-- One description field of `ensureLocation`'s second scan:
`const x = field ? normalize(field) : null` followed by
`x && x === nmd` (both the raw field and its normalization must be
non-empty for a match). -/
def probeVal (normalizedMapDescription : String) : Option String → Bool
  | some v => v ≠ "" && v == normalizedMapDescription
  | none => false

/-- See `probeVal`: the truthiness-guarded normalization of one field. -/
def probeField (normalizedMapDescription : String) : Option String → Bool
  | some s => probeVal normalizedMapDescription (if s ≠ "" then some (normalize s) else none)
  | none => false

/-- The predicate of `ensureLocation`'s second scan: does this node's
truthiness-guarded normalized map-description or long description equal
the normalized hint? -/
def descProbe (normalizedMapDescription : String) (loc : LocationNode) : Bool :=
  probeField normalizedMapDescription loc.mapDescription ||
  probeField normalizedMapDescription loc.description

/-- The `if (mapDescription) { ... }` fallback scan of `ensureLocation`. -/
def ensureLocationByDesc (g : Graph) :
    Option String → Option LocationNode
  | some md =>
    if md ≠ "" then
      let normalizedMapDescription := normalize md
      if normalizedMapDescription.length > 0 then
        (Graph.values g).find? (descProbe normalizedMapDescription)
      else none
    else none
  | none => none

/-- The brand-new node `ensureLocation` creates (fresh id, given name,
null descriptions, undiscovered, empty items and connections). -/
def freshNode (c : Nat) (name : String) : LocationNode :=
  { id := c, locationName := name, description := none, mapDescription := none,
    discovered := false, items := [], connections := [] }

/-- `ensureLocation` from `applyGameTurn.ts`. Takes and returns the fresh
id counter; returns the resolved-or-created node together with the
(possibly extended) world. -/
def ensureLocation (w : World) (c : Nat) (name : String) (mapDescription : Option String) :
    LocationNode × World × Nat :=
  let normalizedName := normalize name
  match (Graph.values w.graph).find?
      (fun loc => normalize loc.locationName == normalizedName) with
  | some byName => (byName, w, c)
  | none =>
    match ensureLocationByDesc w.graph mapDescription with
    | some node => (node, w, c)
    | none =>
      let node := freshNode c name
      (node, { w with graph := setGraph w.graph c node }, c + 1)

/-- `mergeItems` from `applyGameTurn.ts`. The `Map` built from the
existing items keeps the last item per normalized name, hence the
`reverse.find?`. Fresh item ids come from the counter. -/
def mergeItems (existingItems : List Item) (descriptors : List ItemDescriptor)
    (ownerCharacterId : Option Nat) (c : Nat) : List Item × Nat :=
  match descriptors with
  | [] => ([], c)
  | descriptor :: rest =>
    let key := normalize descriptor.name
    match existingItems.reverse.find? (fun item => normalize item.name == key) with
    | some existing =>
      let tail := mergeItems existingItems rest ownerCharacterId c
      ({ id := existing.id, name := descriptor.name,
         description := descriptor.description.getD "",
         portable := descriptor.portable.getD true,
         ownerCharacterId := ownerCharacterId } :: tail.1, tail.2)
    | none =>
      let tail := mergeItems existingItems rest ownerCharacterId (c + 1)
      ({ id := c, name := descriptor.name,
         description := descriptor.description.getD "",
         portable := descriptor.portable.getD true,
         ownerCharacterId := ownerCharacterId } :: tail.1, tail.2)

/-- The in-place update branch of `upsertConnection`: update the first
connection whose `targetId` matches (`findIndex`), returning `none` when
there is none. The new label is `label || existing.label ||
DEFAULT_EXIT_LABEL` and the bidirectional flag is ORed. -/
def upsertConnList (conns : List Connection) (targetId : Nat) (label : String)
    (bidirectional : Bool) : Option (List Connection) :=
  match conns with
  | [] => none
  | conn :: rest =>
    if conn.targetId = targetId then
      some ({ conn with
              label := some (strOr label (strOr (conn.label.getD "") DEFAULT_EXIT_LABEL)),
              bidirectional := conn.bidirectional || bidirectional } :: rest)
    else (upsertConnList rest targetId label bidirectional).map (conn :: ·)

/-- `upsertConnection` from `applyGameTurn.ts`, acting on one node:
update the first matching connection in place, else append a new one with
a fresh id. -/
def upsertConnection (source : LocationNode) (targetId : Nat) (label : String)
    (bidirectional : Bool) (c : Nat) : LocationNode × Nat :=
  match upsertConnList source.connections targetId label bidirectional with
  | some conns => ({ source with connections := conns }, c)
  | none =>
    ({ source with connections := source.connections ++
        [{ id := c, targetId := targetId, label := some (strOr label DEFAULT_EXIT_LABEL),
           bidirectional := bidirectional }] }, c + 1)

/-- `upsertConnection` lifted to the graph: the TypeScript mutates the
node object stored in the graph under `sourceId`, modelled as
read-update-store. -/
def upsertConnectionG (g : Graph) (sourceId targetId : Nat) (label : String)
    (bidirectional : Bool) (c : Nat) : Graph × Nat :=
  match lookupGraph g sourceId with
  | some node =>
    let r := upsertConnection node targetId label bidirectional c
    (setGraph g sourceId r.1, r.2)
  | none => (g, c)

/-- One iteration of `syncExits`' `forEach` over the exit descriptors. -/
def syncExit (w : World) (c : Nat) (sourceId : Nat) (exit : ExitDescriptor) :
    World × Nat :=
  let r := ensureLocation w c exit.name none
  let target := r.1
  let w := r.2.1
  let c := r.2.2
  let label := strOr ((exit.label.map trimStr).getD "") DEFAULT_EXIT_LABEL
  let bidirectional := exit.bidirectional.getD true
  let pathExists := hasPath w.graph sourceId target.id 2
  if pathExists then (w, c)
  else
    let f := upsertConnectionG w.graph sourceId target.id label bidirectional c
    let b := if bidirectional then
        upsertConnectionG f.1 target.id sourceId label bidirectional f.2
      else f
    ({ w with graph := b.1 }, b.2)

/-- `syncExits` from `applyGameTurn.ts`. -/
def syncExits (w : World) (c : Nat) (sourceId : Nat) (payload : LocationPayload) :
    World × Nat :=
  payload.exits.foldl (fun wc exit => syncExit wc.1 wc.2 sourceId exit) (w, c)

/-- `resolveMapDescription` from `applyGameTurn.ts`: first candidate that
is non-null, non-empty and non-blank after trimming, trimmed; else null. -/
def resolveMapDescription : List (Option String) → Option String
  | [] => none
  | none :: rest => resolveMapDescription rest
  | some s :: rest =>
    if s = "" then resolveMapDescription rest
    else if trimStr s = "" then resolveMapDescription rest
    else some (trimStr s)

/-- `upsertLocationFromPayload` from `applyGameTurn.ts`. Returns the id of
the resolved node together with the updated world and counter. The field
mutations happen before `syncExits` runs, and `locationNode.description`
is overwritten before `resolveMapDescription` reads it, so the fourth
candidate is the payload's long description. -/
def upsertLocationFromPayload (w : World) (c : Nat) (payload : LocationPayload)
    (discovered : Bool) (fallbackMapDescription : Option String) :
    Nat × World × Nat :=
  let r := ensureLocation w c payload.name payload.mapDescription
  let locationNode := r.1
  let w := r.2.1
  let c := r.2.2
  let locationName :=
    if normalize locationNode.locationName = normalize payload.name then payload.name
    else locationNode.locationName
  let items := mergeItems locationNode.items payload.items none c
  let node : LocationNode :=
    { locationNode with
      locationName := locationName,
      description := some payload.description,
      mapDescription := resolveMapDescription
        [payload.mapDescription, fallbackMapDescription, locationNode.mapDescription,
         some payload.description],
      discovered := locationNode.discovered || discovered,
      items := items.1 }
  let w := { w with graph := setGraph w.graph locationNode.id node }
  let s := syncExits w items.2 locationNode.id payload
  (locationNode.id, s.1, s.2)

/-- The `turn.discoveries.forEach(...)` loop of `applyGameTurn`: upsert
every discovered location with `discovered = false`. -/
def applyDiscoveries (locs : List LocationPayload) (w : World) (c : Nat) : World × Nat :=
  locs.foldl (fun wc loc =>
    let u := upsertLocationFromPayload wc.1 wc.2 loc false none
    (u.2.1, u.2.2)) (w, c)

/-- `ApplyGameTurnResult` from `applyGameTurn.ts`. -/
structure ApplyGameTurnResult where
  world : World
  character : Character
  newEntries : List SessionEntry
deriving Repr, DecidableEq

/-- Attach the action summary to the most recent `"gm"` entry (the
backwards `for` loop at the end of `applyGameTurn`). -/
def attachSummaryRev (playerMessage narration : String) :
    List SessionEntry → List SessionEntry
  | [] => []
  | entry :: rest =>
    if entry.author = "gm" then
      let summary : ActionSummary :=
        { playerMessage := playerMessage, gmResponse := narration,
          occurredAt := entry.createdAt, locationId := entry.locationId }
      { entry with actionSummary := some summary } :: rest
    else entry :: attachSummaryRev playerMessage narration rest

/-- `applyGameTurn` from `applyGameTurn.ts`. The `structuredClone` deep
copies make the TypeScript function pure in its inputs, which is what the
functional model expresses; `now` stands for `new Date().toISOString()`
and `c` is the fresh-id counter standing for `randomUUID()`. -/
def applyGameTurn (world : World) (character : Character) (turn : LLMGameTurn)
    (playerMessage : String) (isInitial : Bool) (now : String) (c : Nat) :
    ApplyGameTurnResult × Nat :=
  let worldClone := world
  let characterClone := character
  let previousLocationId : Option Nat :=
    match characterClone.currentLocationId with
    | some l => some l
    | none => worldClone.entryLocationId
  let p := upsertLocationFromPayload worldClone c turn.playerLocation true turn.mapDescription
  let playerLocationId := p.1
  let d := applyDiscoveries turn.discoveries p.2.1 p.2.2
  let inv := mergeItems characterClone.inventory turn.inventoryItems (some characterClone.id) d.2
  let character' := { characterClone with
    currentWorldId := some d.1.id,
    currentLocationId := some playerLocationId,
    inventory := inv.1 }
  let w := d.1
  let w := if w.ownerCharacterIds.contains character'.id then w
    else { w with ownerCharacterIds := w.ownerCharacterIds ++ [character'.id] }
  let w := { w with updatedAt := now }
  let c := inv.2
  let e1 : List SessionEntry × Nat :=
    if ¬isInitial ∧ trimStr playerMessage ≠ "" then
      ([{ id := c, locationId := previousLocationId, author := "player",
          message := trimStr playerMessage, createdAt := now, actionSummary := none }], c + 1)
    else ([], c)
  let entries := e1.1 ++
    [{ id := e1.2, locationId := some playerLocationId, author := "gm",
       message := turn.narration, createdAt := now, actionSummary := none }]
  let c := e1.2 + 1
  let didMove := some playerLocationId ≠ previousLocationId
  let isAction := ¬isInitial ∧ (trimStr playerMessage).length > 0 ∧ ¬didMove
  let entries :=
    if isAction then
      (attachSummaryRev (trimStr playerMessage) turn.narration entries.reverse).reverse
    else entries
  ({ world := w, character := character', newEntries := entries }, c)

/-! ## Well-formedness

The TypeScript runtime guarantees three structural facts about every
world graph the engine ever sees, which the association-list model states
explicitly: `randomUUID` never collides (every key is below the model's
fresh-id counter), a `Record` has no duplicate keys, and every node is
stored under its own `id` (that is how `ensureLocation` inserts them). -/
/-- Every key already in use is below the fresh-id counter
(collision-freedom of `randomUUID`). -/
def Fresh (g : Graph) (c : Nat) : Prop := ∀ kv ∈ g, kv.1 < c

/-- Every node is stored under its own id. -/
def KeyConsistent (g : Graph) : Prop := ∀ kv ∈ g, kv.2.id = kv.1

/-- A `Record` has no duplicate keys. -/
def KeysNodup (g : Graph) : Prop := (g.map Prod.fst).Nodup

/-- The conjunction of the three runtime guarantees. -/
def WFG (g : Graph) (c : Nat) : Prop := Fresh g c ∧ KeyConsistent g ∧ KeysNodup g

instance : DecidablePred (fun p : Graph × Nat => Fresh p.1 p.2) := by
  intro p; unfold Fresh; infer_instance

instance (g : Graph) (c : Nat) : Decidable (Fresh g c) := by
  unfold Fresh; infer_instance

instance (g : Graph) : Decidable (KeyConsistent g) := by
  unfold KeyConsistent; infer_instance

instance (g : Graph) : Decidable (KeysNodup g) := by
  unfold KeysNodup; infer_instance

instance (g : Graph) (c : Nat) : Decidable (WFG g c) := by
  unfold WFG; infer_instance

/-! ## `ensureLocation`: resolution order and graph growth (claim C5) -/
/-- The resolution criterion of `ensureLocation`'s description fallback,
stated declaratively: some stored map-description or long description
normalizes to `n`. -/
def descMatches (n : String) (loc : LocationNode) : Prop :=
  (∃ m, loc.mapDescription = some m ∧ normalize m = n) ∨
  (∃ d, loc.description = some d ∧ normalize d = n)

instance (n : String) (loc : LocationNode) : Decidable (descMatches n loc) := by
  unfold descMatches
  rcases loc.mapDescription with _ | m <;> rcases loc.description with _ | d <;>
    · simp only [Option.some.injEq, reduceCtorEq, false_and, exists_false,
        exists_eq_left, exists_eq_left']
      infer_instance

/-- Descending order on similarities. -/
def SortedDesc (l : List LocationMatch) : Prop :=
  l.Pairwise (fun a b => b.similarity ≤ a.similarity)

/-- The per-node scoring rule as the claim states it (with the name
compared in lowercased — not trimmed — form, which is the one amendment
the code forces): equality 1.0, prefix 0.9, name substring 0.8,
description substring 0.6, else matched-word fraction halved. -/
def specSimilarity (query : String) (loc : LocationNode) : ℚ :=
  if toLowerStr loc.locationName = query then 1
  else if jsStartsWith (toLowerStr loc.locationName) query then 9/10
  else if jsIncludes (toLowerStr loc.locationName) query then 8/10
  else if jsIncludes (toLowerStr (descOf loc)) query then 6/10
  else
    (((splitWs query).filter (fun word =>
        jsIncludes (toLowerStr loc.locationName) word ||
        jsIncludes (toLowerStr (descOf loc)) word)).length : ℚ) /
      ((splitWs query).length : ℚ) * (1/2)

/-! ## Concrete counterexample fixtures -/
/-- A three-node world `A → B → Square` (no direct `A → Square` edge). -/
def cexWorldC1 : World :=
  { id := 77, name := "w", setting := "", atmosphere := "", genre := "",
    createdAt := "", updatedAt := "", entryLocationId := some 0,
    graph :=
      [(0, { id := 0, locationName := "A", description := none, mapDescription := none,
             discovered := true, items := [],
             connections := [{ id := 100, targetId := 1, label := some "to B",
                               bidirectional := false }] }),
       (1, { id := 1, locationName := "B", description := none, mapDescription := none,
             discovered := true, items := [],
             connections := [{ id := 101, targetId := 2, label := some "to Square",
                               bidirectional := false }] }),
       (2, { id := 2, locationName := "Square", description := none, mapDescription := none,
             discovered := false, items := [], connections := [] })],
    ownerCharacterIds := [] }

/-- A payload whose only exit names `Square` with the bidirectional
default (`bidirectional` absent). -/
def cexPayloadC1 : LocationPayload :=
  { name := "sq", mapDescription := none, description := "d", items := [],
    exits := [{ name := "Square", label := none, bidirectional := none }] }

/-- A two-node world where `A` already has an edge to `B` labelled
`"north passage"`. -/
def cexWorldC2 : World :=
  { id := 78, name := "w", setting := "", atmosphere := "", genre := "",
    createdAt := "", updatedAt := "", entryLocationId := some 0,
    graph :=
      [(0, { id := 0, locationName := "A", description := none, mapDescription := none,
             discovered := true, items := [],
             connections := [{ id := 100, targetId := 1, label := some "north passage",
                               bidirectional := false }] }),
       (1, { id := 1, locationName := "B", description := none, mapDescription := none,
             discovered := true, items := [], connections := [] })],
    ownerCharacterIds := [] }

/-- A payload whose only exit names `B` with a blank label. -/
def cexPayloadC2 : LocationPayload :=
  { name := "x", mapDescription := none, description := "d", items := [],
    exits := [{ name := "B", label := some "", bidirectional := some true }] }

/-- A node whose display name carries leading whitespace, so its
`normalize`d name differs from its lowercased name. -/
def cexLocC9 : LocationNode :=
  { id := 0, locationName := " Tavern", description := none, mapDescription := none,
    discovered := true, items := [], connections := [] }

/-! ## The bidirectional-edge invariant (claim C4) -/
/-- Node `t` has some connection back to `a`. -/
def BackEdge (g : Graph) (t a : Nat) : Prop :=
  ∃ tnode, lookupGraph g t = some tnode ∧
    ∃ conn2 ∈ tnode.connections, conn2.targetId = a

instance (g : Graph) (t a : Nat) : Decidable (BackEdge g t a) := by
  unfold BackEdge
  cases h : lookupGraph g t with
  | none => exact isFalse (by rintro ⟨n, hn, _⟩; cases hn)
  | some node =>
    refine decidable_of_iff (∃ conn2 ∈ node.connections, conn2.targetId = a) ?_
    constructor
    · rintro ⟨c2, hc2, ha⟩
      exact ⟨node, rfl, c2, hc2, ha⟩
    · rintro ⟨n, hn, hcc⟩
      obtain rfl := Option.some_inj.mp hn
      exact hcc

/-- The graph-wide invariant of claim C4: every connection flagged
bidirectional has some reverse connection at its target node. -/
def BidirOK (g : Graph) : Prop :=
  ∀ kv ∈ g, ∀ conn ∈ kv.2.connections, conn.bidirectional = true →
    BackEdge g conn.targetId kv.1

instance (g : Graph) : Decidable (BidirOK g) := by
  unfold BidirOK
  infer_instance

/-- The invariant weakened at one designated forward edge `sid → tid`
(the state between the forward and the reverse upsert of `syncExits`). -/
def BidirOKExcept (g : Graph) (sid tid : Nat) : Prop :=
  ∀ kv ∈ g, ∀ conn ∈ kv.2.connections, conn.bidirectional = true →
    (kv.1 = sid ∧ conn.targetId = tid) ∨ BackEdge g conn.targetId kv.1

/-- The node update `upsertLocationFromPayload` stores back (all field
mutations before `syncExits`; the connections are untouched). -/
def payloadNode (locationNode : LocationNode) (payload : LocationPayload)
    (disc : Bool) (fmd : Option String) (c1 : Nat) : LocationNode :=
  { locationNode with
    locationName :=
      if normalize locationNode.locationName = normalize payload.name then payload.name
      else locationNode.locationName,
    description := some payload.description,
    mapDescription := resolveMapDescription
      [payload.mapDescription, fmd, locationNode.mapDescription, some payload.description],
    discovered := locationNode.discovered || disc,
    items := (mergeItems locationNode.items payload.items none c1).1 }

/-- The single starting location of the witness world. -/
def witNodeA : LocationNode :=
  { id := 0, locationName := "A", description := none, mapDescription := none,
    discovered := false, items := [], connections := [] }

/-- A minimal starting world for the closed invariant witnesses: one
undiscovered location `A` with no connections. -/
def witWorld : World :=
  { id := 50, name := "w", setting := "s", atmosphere := "a", genre := "g",
    createdAt := "t0", updatedAt := "t0", entryLocationId := some 0,
    graph := [(0, witNodeA)], ownerCharacterIds := [] }

/-- A minimal character for the closed invariant witnesses. -/
def witChar : Character :=
  { id := 60, name := "hero", description := "", inventory := [],
    currentWorldId := none, currentLocationId := none,
    lastSessionFile := none, lastSessionEntryId := none }

/-- A turn placing the player in `A` with one defaulted-bidirectional
exit to a brand-new location `B`. -/
def witTurn : LLMGameTurn :=
  { narration := "n", mapDescription := none, suggestions := [],
    playerLocation :=
      { name := "A", mapDescription := none, description := "room A", items := [],
        exits := [{ name := "B", label := none, bidirectional := none }] },
    discoveries := [], inventoryItems := [] }

/-! ## The BFS of `getRoute`: soundness and bounded completeness
(claims C3 and C8) -/
/-- One-step adjacency of the world graph: the node stored at `a` has a
connection targeting `b`. -/
def Adj (g : Graph) (a b : Nat) : Prop :=
  ∃ node, lookupGraph g a = some node ∧ ∃ conn ∈ node.connections, conn.targetId = b

/-- Every connection target is itself stored in the graph. -/
def Closed (g : Graph) : Prop :=
  ∀ kv ∈ g, ∀ conn ∈ kv.2.connections, (lookupGraph g conn.targetId).isSome = true

instance (g : Graph) : Decidable (Closed g) := by
  unfold Closed
  infer_instance

/-- Invariant of every `getRoute` BFS queue entry: its accumulated path
is an adjacency chain from the start node ending at the entry's id. -/
def EntryFromChain (g : Graph) (fromId : Nat) (e : RouteEntry) : Prop :=
  ∃ t, e.path = fromId :: t ∧ List.Chain' (Adj g) (fromId :: t) ∧
    e.path.getLast? = some e.id

/-- Queue order invariant of the BFS: any earlier entry's path is at
most as long as any later one's, and at most one shorter. -/
def QRel (a b : RouteEntry) : Prop :=
  a.path.length ≤ b.path.length ∧ b.path.length ≤ a.path.length + 1

/-- The whole queue is pairwise `QRel`-ordered. -/
def QOK (q : List RouteEntry) : Prop := List.Pairwise QRel q

/-- Completeness witness: some queue entry can still be extended to the
target within the depth budget, through nodes not yet visited. -/
def RouteWitness (g : Graph) (toId : Nat) (queue : List RouteEntry)
    (visited : List Nat) : Prop :=
  ∃ e ∈ queue, ∃ p : List Nat,
    List.Chain' (Adj g) (e.id :: p) ∧ p.getLast? = some toId ∧
    toId ∉ p.dropLast ∧ (∀ x ∈ p.dropLast, x ∉ visited) ∧
    e.path.length + p.length ≤ 8

/-! ## Closed witnesses for the hypothesis-bearing claim theorems -/
/-- The single exit descriptor of `cexPayloadC1`. -/
def cexExitC1 : ExitDescriptor := { name := "Square", label := none, bidirectional := none }

/-- The single exit descriptor of `cexPayloadC2`. -/
def cexExitC2 : ExitDescriptor := { name := "B", label := some "", bidirectional := some true }

/-- The pre-existing `A → B` connection of `cexWorldC2`. -/
def cexConnC2 : Connection :=
  { id := 100, targetId := 1, label := some "north passage", bidirectional := false }

/-- The node `A` of `cexWorldC2`. -/
def cexNodeC2 : LocationNode :=
  { id := 0, locationName := "A", description := none, mapDescription := none,
    discovered := true, items := [], connections := [cexConnC2] }

/-- An existing inventory item for the item-merge witness. -/
def witItem : Item :=
  { id := 3, name := "Knife", description := "old", portable := true,
    ownerCharacterId := none }

/-- A descriptor renaming `witItem` up to normalization. -/
def witDesc : ItemDescriptor :=
  { name := " knife ", description := none, portable := none }

theorem length_filter_mono {α} (l : List α) (p q : α → Bool)
    (h : ∀ x, p x = true → q x = true) :
    (l.filter p).length ≤ (l.filter q).length := by
  induction l with
  | nil => simp
  | cons a l ih =>
    by_cases hp : p a = true
    · simp [List.filter_cons, hp, h a hp, Nat.succ_le_succ ih]
    · simp only [List.filter_cons, Bool.not_eq_true] at hp ⊢
      rw [hp]
      cases hq : q a <;> simp [ih, Nat.le_succ_of_le ih]

theorem length_filter_lt {α} (l : List α) (p q : α → Bool)
    (h : ∀ x, p x = true → q x = true) (t : α)
    (ht : t ∈ l) (hq : q t = true) (hp : p t = false) :
    (l.filter p).length < (l.filter q).length := by
  induction l with
  | nil => cases ht
  | cons a l ih =>
    rcases List.mem_cons.mp ht with rfl | hmem
    · have hfp : p t = false := hp
      simp only [List.filter_cons, hfp, hq]
      exact Nat.lt_succ_of_le (length_filter_mono l p q h)
    · by_cases hpa : p a = true
      · simp [List.filter_cons, hpa, h a hpa, Nat.succ_lt_succ (ih hmem)]
      · simp only [Bool.not_eq_true] at hpa
        simp only [List.filter_cons, hpa]
        cases hqa : q a
        · exact ih hmem
        · exact Nat.lt_succ_of_lt (ih hmem)

theorem unseen_push (g : Graph) (visited : List Nat) (t : Nat)
    (h : t ∈ graphTargets g) (hv : t ∉ visited) :
    unseenCount g (visited ++ [t]) < unseenCount g visited := by
  apply length_filter_lt
  · intro x hx
    simp only [Bool.not_eq_true', decide_eq_false_iff_not, List.mem_append,
      List.mem_singleton] at hx ⊢
    exact fun hmem => hx (Or.inl hmem)
  · exact h
  · simpa using hv
  · simp

theorem routeExpand_measure (g : Graph) (toId : Nat) (cur : RouteEntry) :
    ∀ (conns : List Connection) (queue : List RouteEntry) (visited : List Nat)
      (q' : List RouteEntry) (vis' : List Nat),
    (∀ conn ∈ conns, conn.targetId ∈ graphTargets g) →
    routeExpand toId cur conns queue visited = (none, q', vis') →
    q'.length + unseenCount g vis' ≤ queue.length + unseenCount g visited := by
  intro conns
  induction conns with
  | nil =>
    intro queue visited q' vis' _ h
    simp only [routeExpand] at h
    obtain ⟨rfl, rfl⟩ : queue = q' ∧ visited = vis' := by
      exact ⟨congrArg (Prod.fst ∘ Prod.snd) h, congrArg (Prod.snd ∘ Prod.snd) h⟩
    exact le_refl _
  | cons conn rest ih =>
    intro queue visited q' vis' hmem h
    simp only [routeExpand] at h
    by_cases h1 : conn.targetId = toId
    · simp [h1] at h
    · simp only [h1, if_false] at h
      by_cases h2 : conn.targetId ∈ visited
      · exact ih queue visited q' vis' (fun c hc => hmem c (List.mem_cons_of_mem _ hc)) (by simpa [h2] using h)
      · simp only [h2, if_false] at h
        have step := ih _ _ q' vis' (fun c hc => hmem c (List.mem_cons_of_mem _ hc)) h
        have hlt : unseenCount g (visited ++ [conn.targetId]) < unseenCount g visited :=
          unseen_push g visited conn.targetId (hmem conn (List.mem_cons_self _ _)) h2
        simp only [List.length_append, List.length_cons, List.length_nil] at step
        omega

theorem targets_mem_of_lookup (g : Graph) (k : Nat) (node : LocationNode)
    (h : lookupGraph g k = some node) :
    ∀ conn ∈ node.connections, conn.targetId ∈ graphTargets g := by
  intro conn hconn
  unfold lookupGraph at h
  obtain ⟨kv, hfind, hsnd⟩ := Option.map_eq_some'.mp h
  have hkv : kv ∈ g := List.mem_of_find?_eq_some hfind
  unfold graphTargets
  refine List.mem_flatMap.mpr ⟨kv, hkv, ?_⟩
  exact List.mem_map.mpr ⟨conn, by rw [hsnd]; exact hconn, rfl⟩

/-- One iteration strictly decreases the loop measure, hence the result
does not depend on the fuel once the fuel exceeds the measure: the fueled
loop computes the same answer as the unbounded source loop. -/
theorem routeLoopF_congr (g : Graph) (toId : Nat) :
    ∀ (f₁ f₂ : Nat) (q : List RouteEntry) (vis : List Nat),
    q.length + unseenCount g vis < f₁ → q.length + unseenCount g vis < f₂ →
    routeLoopF g toId f₁ q vis = routeLoopF g toId f₂ q vis := by
  intro f₁
  induction f₁ using Nat.strong_induction_on with
  | _ f₁ ih =>
    intro f₂ q vis h₁ h₂
    match f₁, f₂, q with
    | 0, _, q => exact absurd h₁ (Nat.not_lt_zero _)
    | _ + 1, 0, q => exact absurd h₂ (Nat.not_lt_zero _)
    | f₁ + 1, f₂ + 1, [] => rfl
    | f₁ + 1, f₂ + 1, cur :: rest =>
      rw [List.length_cons] at h₁ h₂
      show routeLoopF g toId (f₁ + 1) (cur :: rest) vis
          = routeLoopF g toId (f₂ + 1) (cur :: rest) vis
      rw [routeLoopF, routeLoopF]
      by_cases hskip : cur.path.length > 7
      · rw [if_pos hskip, if_pos hskip]
        exact ih f₁ (Nat.lt_succ_self _) f₂ rest vis (by omega) (by omega)
      · rw [if_neg hskip, if_neg hskip]
        cases hN : lookupGraph g cur.id with
        | none =>
          dsimp only
          exact ih f₁ (Nat.lt_succ_self _) f₂ rest vis (by omega) (by omega)
        | some node =>
          dsimp only
          cases hE : routeExpand toId cur node.connections rest vis with
          | mk found qv =>
            obtain ⟨q', vis'⟩ := qv
            cases found with
            | some p => rfl
            | none =>
              dsimp only
              have hm := routeExpand_measure g toId cur node.connections rest vis
                q' vis' (targets_mem_of_lookup g cur.id node hN) hE
              exact ih f₁ (Nat.lt_succ_self _) f₂ q' vis' (by omega) (by omega)

theorem hasPathExpand_measure (g : Graph) (toId minDepth : Nat) (cur : DepthEntry) :
    ∀ (conns : List Connection) (queue : List DepthEntry) (visited : List Nat)
      (q' : List DepthEntry) (vis' : List Nat),
    (∀ conn ∈ conns, conn.targetId ∈ graphTargets g) →
    hasPathExpand toId minDepth cur conns queue visited = (false, q', vis') →
    q'.length + unseenCount g vis' ≤ queue.length + unseenCount g visited := by
  intro conns
  induction conns with
  | nil =>
    intro queue visited q' vis' _ h
    simp only [hasPathExpand] at h
    obtain ⟨rfl, rfl⟩ : queue = q' ∧ visited = vis' := by
      exact ⟨congrArg (Prod.fst ∘ Prod.snd) h, congrArg (Prod.snd ∘ Prod.snd) h⟩
    exact le_refl _
  | cons conn rest ih =>
    intro queue visited q' vis' hmem h
    simp only [hasPathExpand] at h
    by_cases h1 : conn.targetId = toId ∧ cur.depth + 1 ≥ minDepth
    · simp [h1] at h
    · simp only [h1, if_false] at h
      by_cases h2 : conn.targetId ∈ visited
      · exact ih queue visited q' vis' (fun c hc => hmem c (List.mem_cons_of_mem _ hc)) (by simpa [h2] using h)
      · simp only [h2, if_false] at h
        have step := ih _ _ q' vis' (fun c hc => hmem c (List.mem_cons_of_mem _ hc)) h
        have hlt : unseenCount g (visited ++ [conn.targetId]) < unseenCount g visited :=
          unseen_push g visited conn.targetId (hmem conn (List.mem_cons_self _ _)) h2
        simp only [List.length_append, List.length_cons, List.length_nil] at step
        omega

/-- Fuel-independence of `hasPathLoopF` beyond the loop measure. -/
theorem hasPathLoopF_congr (g : Graph) (toId minDepth : Nat) :
    ∀ (f₁ f₂ : Nat) (q : List DepthEntry) (vis : List Nat),
    q.length + unseenCount g vis < f₁ → q.length + unseenCount g vis < f₂ →
    hasPathLoopF g toId minDepth f₁ q vis = hasPathLoopF g toId minDepth f₂ q vis := by
  intro f₁
  induction f₁ using Nat.strong_induction_on with
  | _ f₁ ih =>
    intro f₂ q vis h₁ h₂
    match f₁, f₂, q with
    | 0, _, q => exact absurd h₁ (Nat.not_lt_zero _)
    | _ + 1, 0, q => exact absurd h₂ (Nat.not_lt_zero _)
    | f₁ + 1, f₂ + 1, [] => rfl
    | f₁ + 1, f₂ + 1, cur :: rest =>
      rw [List.length_cons] at h₁ h₂
      show hasPathLoopF g toId minDepth (f₁ + 1) (cur :: rest) vis
          = hasPathLoopF g toId minDepth (f₂ + 1) (cur :: rest) vis
      rw [hasPathLoopF, hasPathLoopF]
      by_cases hskip : cur.depth ≥ 7
      · rw [if_pos hskip, if_pos hskip]
        exact ih f₁ (Nat.lt_succ_self _) f₂ rest vis (by omega) (by omega)
      · rw [if_neg hskip, if_neg hskip]
        cases hN : lookupGraph g cur.id with
        | none =>
          dsimp only
          exact ih f₁ (Nat.lt_succ_self _) f₂ rest vis (by omega) (by omega)
        | some node =>
          dsimp only
          cases hE : hasPathExpand toId minDepth cur node.connections rest vis with
          | mk found qv =>
            obtain ⟨q', vis'⟩ := qv
            cases found with
            | true => rfl
            | false =>
              dsimp only
              have hm := hasPathExpand_measure g toId minDepth cur node.connections rest vis
                q' vis' (targets_mem_of_lookup g cur.id node hN) hE
              exact ih f₁ (Nat.lt_succ_self _) f₂ q' vis' (by omega) (by omega)

/-! ### Association-list lemmas for `lookupGraph` / `setGraph` -/
theorem lookupGraph_nil (k : Nat) : lookupGraph [] k = none := rfl

theorem lookupGraph_cons (kv : Nat × LocationNode) (g : Graph) (k : Nat) :
    lookupGraph (kv :: g) k = if kv.1 = k then some kv.2 else lookupGraph g k := by
  unfold lookupGraph
  by_cases h : kv.1 = k
  · simp [List.find?_cons, h]
  · simp [List.find?_cons, h]

theorem lookupGraph_mem {g : Graph} {k : Nat} {n : LocationNode}
    (h : lookupGraph g k = some n) : (k, n) ∈ g := by
  unfold lookupGraph at h
  obtain ⟨kv, hfind, hsnd⟩ := Option.map_eq_some'.mp h
  have hk : kv.1 = k := by simpa using List.find?_some hfind
  have hmem := List.mem_of_find?_eq_some hfind
  rw [← hk, ← hsnd, Prod.mk.eta]
  exact hmem

theorem lookupGraph_of_mem {g : Graph} {kv : Nat × LocationNode}
    (hND : KeysNodup g) (h : kv ∈ g) : lookupGraph g kv.1 = some kv.2 := by
  induction g with
  | nil => cases h
  | cons a t ih =>
    rcases List.mem_cons.mp h with rfl | hmem
    · simp [lookupGraph_cons]
    · have hne : a.1 ≠ kv.1 := by
        intro heq
        have : kv.1 ∈ t.map Prod.fst := List.mem_map.mpr ⟨kv, hmem, rfl⟩
        have := (List.nodup_cons.mp hND).1
        exact this (heq ▸ List.mem_map.mpr ⟨kv, hmem, rfl⟩)
      rw [lookupGraph_cons, if_neg hne]
      exact ih (List.nodup_cons.mp hND).2 hmem

theorem lookupGraph_append_some {g : Graph} {k : Nat} {n : LocationNode}
    (l : Graph) (h : lookupGraph g k = some n) :
    lookupGraph (g ++ l) k = some n := by
  induction g with
  | nil => simp [lookupGraph_nil] at h
  | cons a t ih =>
    rw [lookupGraph_cons] at h
    by_cases hk : a.1 = k
    · rw [List.cons_append, lookupGraph_cons, if_pos hk]
      simpa [hk] using h
    · rw [List.cons_append, lookupGraph_cons, if_neg hk]
      exact ih (by simpa [hk] using h)

theorem lookupGraph_append_none {g : Graph} {k : Nat}
    (l : Graph) (h : lookupGraph g k = none) :
    lookupGraph (g ++ l) k = lookupGraph l k := by
  induction g with
  | nil => simp
  | cons a t ih =>
    rw [lookupGraph_cons] at h
    by_cases hk : a.1 = k
    · simp [hk] at h
    · rw [List.cons_append, lookupGraph_cons, if_neg hk]
      exact ih (by simpa [hk] using h)

theorem lookupGraph_singleton (k k' : Nat) (v : LocationNode) :
    lookupGraph [(k', v)] k = if k' = k then some v else none := by
  rw [lookupGraph_cons]; rfl

theorem setGraph_of_not_mem {g : Graph} {k : Nat} (v : LocationNode)
    (h : ∀ kv ∈ g, kv.1 ≠ k) : setGraph g k v = g ++ [(k, v)] := by
  unfold setGraph
  have : g.any (fun kv => kv.1 == k) = false := by
    simp only [List.any_eq_false]
    intro kv hkv
    simpa using h kv hkv
  rw [this]
  simp

theorem setGraph_mem_of_any {g : Graph} {k : Nat} {v : LocationNode}
    (h : g.any (fun kv => kv.1 == k) = true) :
    setGraph g k v = g.map (fun kv => if kv.1 == k then (k, v) else kv) := by
  unfold setGraph
  rw [h]
  simp

theorem lookupGraph_map_replace_self {g : Graph} {k : Nat} (v : LocationNode)
    (hany : g.any (fun kv => kv.1 == k) = true) :
    lookupGraph (g.map (fun kv => if kv.1 == k then (k, v) else kv)) k = some v := by
  induction g with
  | nil => simp at hany
  | cons a t ih =>
    by_cases ha : a.1 = k
    · simp only [List.map_cons, if_pos (show (a.1 == k) = true by simpa using ha)]
      rw [lookupGraph_cons, if_pos rfl]
    · simp only [List.map_cons, if_neg (show ¬(a.1 == k) = true by simpa using ha)]
      rw [lookupGraph_cons, if_neg ha]
      apply ih
      simpa [List.any_cons, ha] using hany

theorem lookupGraph_map_replace_ne {g : Graph} {k k' : Nat} (v : LocationNode)
    (h : k ≠ k') :
    lookupGraph (g.map (fun kv => if kv.1 == k then (k, v) else kv)) k' =
      lookupGraph g k' := by
  induction g with
  | nil => rfl
  | cons a t ih =>
    by_cases ha : a.1 = k
    · simp only [List.map_cons, if_pos (show (a.1 == k) = true by simpa using ha)]
      rw [lookupGraph_cons, lookupGraph_cons]
      have ha' : a.1 ≠ k' := fun hh => h (ha ▸ hh)
      simp only
      rw [if_neg h, if_neg ha']
      exact ih
    · simp only [List.map_cons, if_neg (show ¬(a.1 == k) = true by simpa using ha)]
      rw [lookupGraph_cons, lookupGraph_cons]
      by_cases ha' : a.1 = k'
      · rw [if_pos ha', if_pos ha']
      · rw [if_neg ha', if_neg ha']
        exact ih

theorem lookupGraph_setGraph_self {g : Graph} {k : Nat} (v : LocationNode) :
    lookupGraph (setGraph g k v) k = some v := by
  unfold setGraph
  by_cases h : g.any (fun kv => kv.1 == k) = true
  · rw [if_pos h]
    exact lookupGraph_map_replace_self v h
  · rw [if_neg h]
    have hfalse : g.any (fun kv => kv.1 == k) = false := Bool.eq_false_iff.mpr h
    have hall := List.any_eq_false.mp hfalse
    have hnone : lookupGraph g k = none := by
      unfold lookupGraph
      rw [List.find?_eq_none.mpr, Option.map_none']
      intro kv hkv
      exact hall kv hkv
    rw [lookupGraph_append_none _ hnone, lookupGraph_singleton, if_pos rfl]

theorem lookupGraph_setGraph_ne {g : Graph} {k k' : Nat} (v : LocationNode)
    (h : k ≠ k') : lookupGraph (setGraph g k v) k' = lookupGraph g k' := by
  unfold setGraph
  by_cases hany : g.any (fun kv => kv.1 == k) = true
  · rw [if_pos hany]
    exact lookupGraph_map_replace_ne v h
  · rw [if_neg hany]
    rcases hlookup : lookupGraph g k' with _ | n
    · rw [lookupGraph_append_none _ hlookup, lookupGraph_singleton, if_neg h]
    · exact lookupGraph_append_some _ hlookup

theorem mem_setGraph {g : Graph} {k : Nat} {v : LocationNode} {kv : Nat × LocationNode}
    (h : kv ∈ setGraph g k v) : kv = (k, v) ∨ (kv ∈ g ∧ kv.1 ≠ k) := by
  unfold setGraph at h
  by_cases hany : g.any (fun kv => kv.1 == k) = true
  · rw [if_pos hany] at h
    obtain ⟨kv0, hkv0, heq⟩ := List.mem_map.mp h
    by_cases hk0 : kv0.1 = k
    · left
      rw [← heq, if_pos (show (kv0.1 == k) = true by simpa using hk0)]
    · right
      rw [← heq, if_neg (show ¬(kv0.1 == k) = true by simpa using hk0)]
      exact ⟨hkv0, hk0⟩
  · rw [if_neg hany] at h
    have hfalse : g.any (fun kv => kv.1 == k) = false := Bool.eq_false_iff.mpr hany
    have hall := List.any_eq_false.mp hfalse
    rcases List.mem_append.mp h with hmem | hmem
    · right
      exact ⟨hmem, by simpa using hall kv hmem⟩
    · left
      simpa using hmem

theorem setGraph_keys {g : Graph} {k : Nat} {v : LocationNode}
    (hany : g.any (fun kv => kv.1 == k) = true) :
    (setGraph g k v).map Prod.fst = g.map Prod.fst := by
  rw [setGraph_mem_of_any hany, List.map_map]
  apply List.map_congr_left
  intro kv _
  by_cases hk : kv.1 = k
  · simp [hk]
  · simp [hk]

theorem normalize_empty : normalize "" = "" := rfl

theorem string_length_pos_of_ne {s : String} (h : s ≠ "") : 0 < s.length := by
  cases s with
  | mk data =>
    cases data with
    | nil => exact absurd rfl h
    | cons a t => simp [String.length]

theorem probeField_iff {n : String} (hn : n ≠ "") (o : Option String) :
    probeField n o = true ↔ ∃ s, o = some s ∧ normalize s = n := by
  rcases o with _ | s
  · simp [probeField]
  · by_cases hs : s = ""
    · subst hs
      simp only [probeField, if_neg (fun hc : ("" : String) ≠ "" => hc rfl)]
      constructor
      · intro h
        cases h
      · rintro ⟨s1, hs1, hns⟩
        obtain rfl : "" = s1 := by injection hs1
        rw [normalize_empty] at hns
        exact absurd hns.symm hn
    · simp only [probeField, if_pos hs, probeVal]
      constructor
      · intro h
        simp only [Bool.and_eq_true, decide_eq_true_eq, beq_iff_eq, ne_eq] at h
        exact ⟨s, rfl, h.2⟩
      · rintro ⟨s1, hs1, hns⟩
        obtain rfl : s = s1 := by injection hs1
        simp only [Bool.and_eq_true, decide_eq_true_eq, beq_iff_eq, ne_eq]
        exact ⟨fun he => hn (by rw [← hns, he]), hns⟩

theorem descProbe_iff {n : String} (hn : n ≠ "") (loc : LocationNode) :
    descProbe n loc = true ↔ descMatches n loc := by
  unfold descProbe descMatches
  rw [Bool.or_eq_true, probeField_iff hn, probeField_iff hn]

theorem ensureLocation_name_found {w : World} {c : Nat} {name : String}
    {hint : Option String} {byName : LocationNode}
    (hb : (Graph.values w.graph).find?
        (fun loc => normalize loc.locationName == normalize name) = some byName) :
    ensureLocation w c name hint = (byName, w, c) := by
  unfold ensureLocation
  simp [hb]

theorem ensureLocation_desc_found {w : World} {c : Nat} {name : String}
    {hint : Option String} {node : LocationNode}
    (hb : (Graph.values w.graph).find?
        (fun loc => normalize loc.locationName == normalize name) = none)
    (hd : ensureLocationByDesc w.graph hint = some node) :
    ensureLocation w c name hint = (node, w, c) := by
  unfold ensureLocation
  simp [hb, hd]

theorem ensureLocation_create {w : World} {c : Nat} {name : String}
    {hint : Option String}
    (hb : (Graph.values w.graph).find?
        (fun loc => normalize loc.locationName == normalize name) = none)
    (hd : ensureLocationByDesc w.graph hint = none) :
    ensureLocation w c name hint =
      (freshNode c name,
       { w with graph := setGraph w.graph c (freshNode c name) }, c + 1) := by
  unfold ensureLocation
  simp [hb, hd]

theorem setGraph_fresh {g : Graph} {c : Nat} (v : LocationNode)
    (hfresh : Fresh g c) : setGraph g c v = g ++ [(c, v)] :=
  setGraph_of_not_mem v (fun kv hkv => Nat.ne_of_lt (hfresh kv hkv))

/-- Case analysis on `ensureLocation` (under UUID freshness): either an
existing node is returned and nothing changes, or a single fresh node is
appended. -/
theorem ensureLocation_cases (w : World) (c : Nat) (name : String) (hint : Option String)
    (hfresh : Fresh w.graph c) :
    (∃ node, ensureLocation w c name hint = (node, w, c) ∧ node ∈ Graph.values w.graph) ∨
    (ensureLocation w c name hint =
      (freshNode c name,
       { w with graph := w.graph ++ [(c, freshNode c name)] }, c + 1)) := by
  cases hb : (Graph.values w.graph).find?
      (fun loc => normalize loc.locationName == normalize name) with
  | some byName =>
    exact Or.inl ⟨byName, ensureLocation_name_found hb, List.mem_of_find?_eq_some hb⟩
  | none =>
    cases hd : ensureLocationByDesc w.graph hint with
    | some node =>
      refine Or.inl ⟨node, ensureLocation_desc_found hb hd, ?_⟩
      rcases hint with _ | md
      · cases hd
      · simp only [ensureLocationByDesc] at hd
        by_cases hmd : md = ""
        · rw [if_neg (fun hc => hc hmd)] at hd
          cases hd
        · rw [if_pos hmd] at hd
          by_cases hlen : (normalize md).length > 0
          · rw [if_pos hlen] at hd
            exact List.mem_of_find?_eq_some hd
          · rw [if_neg hlen] at hd
            cases hd
    | none =>
      right
      rw [ensureLocation_create hb hd, setGraph_fresh _ hfresh]

/-- `ensureLocation` never changes non-graph world fields, never removes
a graph entry, preserves well-formedness, and does not decrease the
counter. -/
theorem ensureLocation_frame (w : World) (c : Nat) (name : String) (hint : Option String)
    (hwf : WFG w.graph c) :
    let r := ensureLocation w c name hint
    (∀ kv ∈ w.graph, kv ∈ r.2.1.graph) ∧
    WFG r.2.1.graph r.2.2 ∧ c ≤ r.2.2 ∧
    (∀ k n, lookupGraph w.graph k = some n → lookupGraph r.2.1.graph k = some n) ∧
    r.2.1.id = w.id := by
  obtain ⟨hfresh, hKC, hND⟩ := hwf
  rcases ensureLocation_cases w c name hint hfresh with ⟨node, heq, _⟩ | heq <;> rw [heq]
  · exact ⟨fun kv h => h, ⟨hfresh, hKC, hND⟩, le_refl c, fun k n h => h, rfl⟩
  · refine ⟨fun kv h => List.mem_append_left _ h, ⟨?_, ?_, ?_⟩, Nat.le_succ c,
      fun k n h => lookupGraph_append_some _ h, rfl⟩
    · intro kv hkv
      rcases List.mem_append.mp hkv with hmem | hmem
      · exact Nat.lt_succ_of_lt (hfresh kv hmem)
      · simp only [List.mem_singleton] at hmem
        rw [hmem]
        exact Nat.lt_succ_self c
    · intro kv hkv
      rcases List.mem_append.mp hkv with hmem | hmem
      · exact hKC kv hmem
      · simp only [List.mem_singleton] at hmem
        rw [hmem]
        rfl
    · show KeysNodup (w.graph ++ [(c, freshNode c name)])
      unfold KeysNodup
      rw [List.map_append]
      refine List.Nodup.append hND (by simp) ?_
      intro k hk hk'
      simp only [List.map_cons, List.map_nil, List.mem_singleton] at hk'
      obtain ⟨kv, hkv, hfst⟩ := List.mem_map.mp hk
      exact absurd (hfst.symm ▸ hfresh kv hkv) (by rw [hk']; exact Nat.lt_irrefl c)

/-- The node `ensureLocation` returns is stored in the returned graph
under its own id. -/
theorem ensureLocation_result_lookup (w : World) (c : Nat) (name : String)
    (hint : Option String) (hwf : WFG w.graph c) :
    let r := ensureLocation w c name hint
    lookupGraph r.2.1.graph r.1.id = some r.1 := by
  obtain ⟨hfresh, hKC, hND⟩ := hwf
  rcases ensureLocation_cases w c name hint hfresh with ⟨node, heq, hmem⟩ | heq <;> rw [heq]
  · obtain ⟨kv, hkv, hsnd⟩ := List.mem_map.mp hmem
    have hid : node.id = kv.1 := by rw [← hsnd]; exact hKC kv hkv
    simp only
    rw [hid, ← hsnd]
    exact lookupGraph_of_mem hND hkv
  · simp only
    have hnone : lookupGraph w.graph c = none := by
      unfold lookupGraph
      rw [List.find?_eq_none.mpr, Option.map_none']
      intro kv hkv
      simpa using Nat.ne_of_lt (hfresh kv hkv)
    rw [show (freshNode c name).id = c from rfl,
      lookupGraph_append_none _ hnone, lookupGraph_singleton, if_pos rfl]

/-- C5 claim statement over the source definition: resolution order of
`ensureLocation` (name identity first, then description fallback, then
creation) and graph growth. -/
theorem ensureLocation_resolution (w : World) (c : Nat) (name : String)
    (hint : Option String) (hwf : WFG w.graph c) :
    let r := ensureLocation w c name hint
    (∀ kv ∈ w.graph, kv ∈ r.2.1.graph) ∧
    ((∃ loc ∈ Graph.values w.graph, normalize loc.locationName = normalize name) →
      r.2.1 = w ∧ r.2.2 = c ∧ r.1 ∈ Graph.values w.graph ∧
      normalize r.1.locationName = normalize name) ∧
    ((∀ loc ∈ Graph.values w.graph, normalize loc.locationName ≠ normalize name) →
      ∀ h, hint = some h → normalize h ≠ "" →
      (∃ loc ∈ Graph.values w.graph, descMatches (normalize h) loc) →
      r.2.1 = w ∧ r.2.2 = c ∧ r.1 ∈ Graph.values w.graph ∧
      descMatches (normalize h) r.1) ∧
    ((∀ loc ∈ Graph.values w.graph, normalize loc.locationName ≠ normalize name) →
      (∀ h, hint = some h → normalize h ≠ "" →
        ∀ loc ∈ Graph.values w.graph, ¬descMatches (normalize h) loc) →
      r.1 = freshNode c name ∧
      r.2.1.graph = w.graph ++ [(c, freshNode c name)] ∧ r.2.2 = c + 1) := by
  obtain ⟨hfresh, hKC, hND⟩ := hwf
  refine ⟨(ensureLocation_frame w c name hint ⟨hfresh, hKC, hND⟩).1, ?_, ?_, ?_⟩
  · intro hex
    obtain ⟨loc, hloc, hname⟩ := hex
    have hsome : ((Graph.values w.graph).find?
        (fun loc => normalize loc.locationName == normalize name)).isSome := by
      rw [List.find?_isSome]
      exact ⟨loc, hloc, by simpa using hname⟩
    obtain ⟨byName, hb⟩ := Option.isSome_iff_exists.mp hsome
    rw [ensureLocation_name_found hb]
    exact ⟨rfl, rfl, List.mem_of_find?_eq_some hb,
      by simpa using List.find?_some hb⟩
  · intro hno h hh hne hex
    have hb : (Graph.values w.graph).find?
        (fun loc => normalize loc.locationName == normalize name) = none := by
      rw [List.find?_eq_none]
      intro loc hloc
      simpa using hno loc hloc
    have hh' : h ≠ "" := by
      intro he
      exact hne (by rw [he]; exact normalize_empty)
    obtain ⟨loc, hloc, hdm⟩ := hex
    have hsome : ((Graph.values w.graph).find? (descProbe (normalize h))).isSome := by
      rw [List.find?_isSome]
      exact ⟨loc, hloc, (descProbe_iff hne loc).mpr hdm⟩
    obtain ⟨node, hfind⟩ := Option.isSome_iff_exists.mp hsome
    have hd : ensureLocationByDesc w.graph hint = some node := by
      rw [hh]
      simp only [ensureLocationByDesc]
      rw [if_pos hh', if_pos (string_length_pos_of_ne hne), hfind]
    rw [ensureLocation_desc_found hb hd]
    exact ⟨rfl, rfl, List.mem_of_find?_eq_some hfind,
      (descProbe_iff hne node).mp (List.find?_some hfind)⟩
  · intro hno hnodesc
    have hb : (Graph.values w.graph).find?
        (fun loc => normalize loc.locationName == normalize name) = none := by
      rw [List.find?_eq_none]
      intro loc hloc
      simpa using hno loc hloc
    have hd : ensureLocationByDesc w.graph hint = none := by
      rcases hint with _ | md
      · rfl
      · simp only [ensureLocationByDesc]
        by_cases hmd : md = ""
        · rw [if_neg (fun hc => hc hmd)]
        · rw [if_pos hmd]
          by_cases hlen : (normalize md).length > 0
          · rw [if_pos hlen, List.find?_eq_none]
            intro loc hloc
            have hne : normalize md ≠ "" := by
              intro he
              rw [he] at hlen
              exact absurd hlen (by decide)
            intro hc
            exact hnodesc md rfl hne loc hloc ((descProbe_iff hne loc).mp hc)
          · rw [if_neg hlen]
    rw [ensureLocation_create hb hd, setGraph_fresh _ hfresh]
    exact ⟨rfl, rfl, rfl⟩

/-! ## `mergeItems`: per-descriptor results and identity stability (claim C6) -/
theorem mergeItems_length (existingItems : List Item) (descriptors : List ItemDescriptor)
    (owner : Option Nat) (c : Nat) :
    (mergeItems existingItems descriptors owner c).1.length = descriptors.length := by
  induction descriptors generalizing c with
  | nil => rfl
  | cons d ds ih =>
    simp only [mergeItems]
    cases existingItems.reverse.find? (fun it => normalize it.name == normalize d.name) with
    | some ex => simpa using ih c
    | none => simpa using ih (c + 1)

theorem mergeItems_cons_some {existingItems : List Item} {d : ItemDescriptor}
    {ds : List ItemDescriptor} {owner : Option Nat} {c : Nat} {ex : Item}
    (hfind : existingItems.reverse.find?
      (fun it => normalize it.name == normalize d.name) = some ex) :
    mergeItems existingItems (d :: ds) owner c =
      ({ id := ex.id, name := d.name, description := d.description.getD "",
         portable := d.portable.getD true, ownerCharacterId := owner } ::
         (mergeItems existingItems ds owner c).1,
       (mergeItems existingItems ds owner c).2) := by
  simp [mergeItems, hfind]

theorem mergeItems_cons_none {existingItems : List Item} {d : ItemDescriptor}
    {ds : List ItemDescriptor} {owner : Option Nat} {c : Nat}
    (hfind : existingItems.reverse.find?
      (fun it => normalize it.name == normalize d.name) = none) :
    mergeItems existingItems (d :: ds) owner c =
      ({ id := c, name := d.name, description := d.description.getD "",
         portable := d.portable.getD true, ownerCharacterId := owner } ::
         (mergeItems existingItems ds owner (c + 1)).1,
       (mergeItems existingItems ds owner (c + 1)).2) := by
  simp [mergeItems, hfind]

/-- C6 claim statement over the source definition: `mergeItems` returns
exactly one item per descriptor in descriptor order, reusing a matching
existing item's id (else a fresh one), always stamping the supplied
owner, and dropping unmatched existing items. -/
theorem mergeItems_spec (existingItems : List Item) (descriptors : List ItemDescriptor)
    (owner : Option Nat) (c : Nat)
    (hfresh : ∀ it ∈ existingItems, it.id < c) :
    let r := mergeItems existingItems descriptors owner c
    r.1.length = descriptors.length ∧
    (∀ (i : Nat) (d : ItemDescriptor), descriptors[i]? = some d →
      ∃ item, r.1[i]? = some item ∧
        item.name = d.name ∧
        item.ownerCharacterId = owner ∧
        ((∃ ex ∈ existingItems,
            normalize ex.name = normalize d.name ∧ item.id = ex.id) ∨
         ((∀ ex ∈ existingItems, normalize ex.name ≠ normalize d.name) ∧
          c ≤ item.id ∧ (∀ ex ∈ existingItems, item.id ≠ ex.id)))) ∧
    (∀ it ∈ existingItems,
      (∀ d ∈ descriptors, normalize d.name ≠ normalize it.name) → it ∉ r.1) := by
  refine ⟨mergeItems_length existingItems descriptors owner c, ?_, ?_⟩
  · induction descriptors generalizing c with
    | nil =>
      intro i d hd
      simp at hd
    | cons d0 ds ih =>
      intro i d hd
      cases hfind : existingItems.reverse.find?
          (fun it => normalize it.name == normalize d0.name) with
      | some ex =>
        have hmem : ex ∈ existingItems :=
          List.mem_reverse.mp (List.mem_of_find?_eq_some hfind)
        have hname : normalize ex.name = normalize d0.name := by
          simpa using List.find?_some hfind
        rw [mergeItems_cons_some hfind]
        cases i with
        | zero =>
          simp only [List.getElem?_cons_zero, Option.some.injEq] at hd
          subst hd
          exact ⟨{ id := ex.id, name := d0.name, description := d0.description.getD "",
                   portable := d0.portable.getD true, ownerCharacterId := owner },
                 by simp, rfl, rfl, Or.inl ⟨ex, hmem, hname, rfl⟩⟩
        | succ j =>
          simp only [List.getElem?_cons_succ] at hd ⊢
          exact ih c hfresh j d hd
      | none =>
        have hnomatch : ∀ ex ∈ existingItems,
            normalize ex.name ≠ normalize d0.name := by
          intro ex hmem
          have := List.find?_eq_none.mp hfind ex (List.mem_reverse.mpr hmem)
          simpa using this
        rw [mergeItems_cons_none hfind]
        cases i with
        | zero =>
          simp only [List.getElem?_cons_zero, Option.some.injEq] at hd
          subst hd
          refine ⟨{ id := c, name := d0.name, description := d0.description.getD "",
                    portable := d0.portable.getD true, ownerCharacterId := owner },
                  by simp, rfl, rfl, Or.inr ⟨hnomatch, le_refl c, ?_⟩⟩
          intro ex hmem
          exact Nat.ne_of_gt (hfresh ex hmem)
        | succ j =>
          simp only [List.getElem?_cons_succ] at hd ⊢
          obtain ⟨item, hitem, hn, ho, hcase⟩ :=
            ih (c + 1) (fun it h => Nat.lt_succ_of_lt (hfresh it h)) j d hd
          refine ⟨item, hitem, hn, ho, ?_⟩
          rcases hcase with hl | ⟨hno, hge, hne⟩
          · exact Or.inl hl
          · exact Or.inr ⟨hno, Nat.le_of_succ_le hge, hne⟩
  · induction descriptors generalizing c with
    | nil =>
      intro it _ _ h
      simp [mergeItems] at h
    | cons d ds ih =>
      intro it hit hnod h
      cases hfind : existingItems.reverse.find?
          (fun it => normalize it.name == normalize d.name) with
      | some ex =>
        rw [mergeItems_cons_some hfind] at h
        simp only [List.mem_cons] at h
        rcases h with heq | h
        · have : it.name = d.name := by rw [heq]
          exact hnod d (List.mem_cons_self d ds) (by rw [this])
        · exact ih c hfresh it hit
            (fun d' hd' => hnod d' (List.mem_cons_of_mem d hd')) h
      | none =>
        rw [mergeItems_cons_none hfind] at h
        simp only [List.mem_cons] at h
        rcases h with heq | h
        · have : it.id = c := by rw [heq]
          exact absurd (this ▸ hfresh it hit) (Nat.lt_irrefl c)
        · exact ih (c + 1) (fun x hx => Nat.lt_succ_of_lt (hfresh x hx)) it hit
            (fun d' hd' => hnod d' (List.mem_cons_of_mem d hd')) h

/-! ## `applyGameTurn` preserves the world and character identities (claim C7)

The TypeScript function `structuredClone`s both inputs before touching
anything, so the caller's objects are never mutated; in this purely
functional model that contract is inherent (the inputs are immutable
values), and the remaining checkable content is that the returned
snapshots keep the input identities. -/
theorem ensureLocation_world_id (w : World) (c : Nat) (name : String)
    (hint : Option String) : (ensureLocation w c name hint).2.1.id = w.id := by
  unfold ensureLocation
  dsimp only
  split
  · rfl
  · split
    all_goals rfl

theorem syncExit_world_id (w : World) (c : Nat) (sid : Nat) (e : ExitDescriptor) :
    (syncExit w c sid e).1.id = w.id := by
  unfold syncExit
  dsimp only
  split
  · exact ensureLocation_world_id w c e.name none
  · exact ensureLocation_world_id w c e.name none

theorem syncExits_foldl_id (sid : Nat) (exits : List ExitDescriptor) :
    ∀ (w : World) (c : Nat),
    ((exits.foldl (fun wc exit => syncExit wc.1 wc.2 sid exit) (w, c)).1).id = w.id := by
  induction exits with
  | nil => intro w c; rfl
  | cons e es ih =>
    intro w c
    rw [List.foldl_cons]
    exact (ih (syncExit w c sid e).1 (syncExit w c sid e).2).trans
      (syncExit_world_id w c sid e)

theorem syncExits_world_id (w : World) (c : Nat) (sid : Nat) (payload : LocationPayload) :
    (syncExits w c sid payload).1.id = w.id :=
  syncExits_foldl_id sid payload.exits w c

theorem upsertLocationFromPayload_world_id (w : World) (c : Nat)
    (payload : LocationPayload) (discovered : Bool) (fallback : Option String) :
    (upsertLocationFromPayload w c payload discovered fallback).2.1.id = w.id := by
  unfold upsertLocationFromPayload
  dsimp only
  exact (syncExits_world_id _ _ _ payload).trans
    (ensureLocation_world_id w c payload.name payload.mapDescription)

theorem applyDiscoveries_world_id (locs : List LocationPayload) :
    ∀ (w : World) (c : Nat), (applyDiscoveries locs w c).1.id = w.id := by
  induction locs with
  | nil => intro w c; rfl
  | cons loc locs ih =>
    intro w c
    unfold applyDiscoveries
    rw [List.foldl_cons]
    exact (ih _ _).trans (upsertLocationFromPayload_world_id w c loc false none)

/-- C7 claim statement over the source definition: the returned world and
character snapshots keep the ids of the inputs (and the inputs themselves
are untouched, which the pure model guarantees by construction, mirroring
the `structuredClone` calls). -/
theorem applyGameTurn_preserves_ids (world : World) (character : Character)
    (turn : LLMGameTurn) (playerMessage : String) (isInitial : Bool)
    (now : String) (c : Nat) :
    (applyGameTurn world character turn playerMessage isInitial now c).1.world.id
        = world.id ∧
    (applyGameTurn world character turn playerMessage isInitial now c).1.character.id
        = character.id := by
  unfold applyGameTurn
  dsimp only
  constructor
  · split
    · exact (applyDiscoveries_world_id turn.discoveries _ _).trans
        (upsertLocationFromPayload_world_id world c turn.playerLocation true
          turn.mapDescription)
    · exact (applyDiscoveries_world_id turn.discoveries _ _).trans
        (upsertLocationFromPayload_world_id world c turn.playerLocation true
          turn.mapDescription)
  · rfl

/-! ## `findLocationByName`: ranking contract (claims C9, C10) -/
theorem insertDesc_length (m : LocationMatch) (l : List LocationMatch) :
    (insertDesc m l).length = l.length + 1 := by
  induction l with
  | nil => rfl
  | cons x xs ih =>
    unfold insertDesc
    split
    · simp
    · simp [ih]

theorem sortDesc_length (l : List LocationMatch) :
    (sortDesc l).length = l.length := by
  suffices h : ∀ acc : List LocationMatch,
      (l.foldl (fun acc m => insertDesc m acc) acc).length = acc.length + l.length by
    simpa using h []
  induction l with
  | nil => intro acc; simp
  | cons x xs ih =>
    intro acc
    rw [List.foldl_cons, ih (insertDesc x acc), insertDesc_length, List.length_cons]
    omega

theorem mem_insertDesc {x m : LocationMatch} {l : List LocationMatch} :
    x ∈ insertDesc m l ↔ x = m ∨ x ∈ l := by
  induction l with
  | nil => simp [insertDesc]
  | cons y ys ih =>
    unfold insertDesc
    split
    · simp [List.mem_cons]
    · simp only [List.mem_cons, ih]
      tauto

theorem mem_sortDesc {x : LocationMatch} {l : List LocationMatch} :
    x ∈ sortDesc l ↔ x ∈ l := by
  suffices h : ∀ acc : List LocationMatch,
      (x ∈ l.foldl (fun acc m => insertDesc m acc) acc ↔ x ∈ acc ∨ x ∈ l) by
    simpa using h []
  induction l with
  | nil => intro acc; simp
  | cons y ys ih =>
    intro acc
    rw [List.foldl_cons, ih (insertDesc y acc)]
    simp only [mem_insertDesc, List.mem_cons]
    tauto

theorem insertDesc_sorted {m : LocationMatch} {l : List LocationMatch}
    (h : SortedDesc l) : SortedDesc (insertDesc m l) := by
  induction l with
  | nil => exact List.pairwise_singleton _ _
  | cons x xs ih =>
    unfold SortedDesc at h ⊢
    rw [List.pairwise_cons] at h
    unfold insertDesc
    split
    · rename_i hlt
      rw [List.pairwise_cons]
      refine ⟨?_, List.pairwise_cons.mpr h⟩
      intro y hy
      rcases List.mem_cons.mp hy with rfl | hmem
      · exact le_of_lt hlt
      · exact le_trans (h.1 y hmem) (le_of_lt hlt)
    · rename_i hge
      rw [List.pairwise_cons]
      refine ⟨?_, ih h.2⟩
      intro y hy
      rcases mem_insertDesc.mp hy with rfl | hmem
      · exact le_of_not_lt hge
      · exact h.1 y hmem

theorem sortDesc_sorted (l : List LocationMatch) : SortedDesc (sortDesc l) := by
  suffices h : ∀ acc : List LocationMatch, SortedDesc acc →
      SortedDesc (l.foldl (fun acc m => insertDesc m acc) acc) by
    exact h [] (List.Pairwise.nil)
  induction l with
  | nil => intro acc hacc; exact hacc
  | cons x xs ih =>
    intro acc hacc
    rw [List.foldl_cons]
    exact ih (insertDesc x acc) (insertDesc_sorted hacc)

/-- Membership in `findLocationByName`'s pre-sort candidate list. -/
theorem findLocationByName_mem {rawName : String} {g : Graph} {m : LocationMatch}
    (h : m ∈ findLocationByName rawName g) :
    ∃ loc ∈ Graph.values g,
      m = { id := loc.id, name := loc.locationName, mapDescription := descOf loc,
            similarity := scoreLocation (trimStr (toLowerStr rawName)) loc } ∧
      mkRat 3 10 < scoreLocation (trimStr (toLowerStr rawName)) loc := by
  unfold findLocationByName at h
  have h1 := mem_sortDesc.mp (List.mem_of_mem_take h)
  obtain ⟨loc, hloc, hf⟩ := List.mem_filterMap.mp h1
  by_cases hgt : mkRat 3 10 < scoreLocation (trimStr (toLowerStr rawName)) loc
  · rw [if_pos hgt] at hf
    exact ⟨loc, hloc, (Option.some_inj.mp hf).symm, hgt⟩
  · rw [if_neg hgt] at hf
    cases hf

theorem mkRat_half_fraction (m n : Nat) :
    (mkRat (m : Int) (n * 2) : ℚ) = (m : ℚ) / (n : ℚ) * (1/2) := by
  rw [Rat.mkRat_eq_div]
  push_cast
  rw [← div_div, mul_one_div]

theorem scoreLocation_eq_spec (query : String) (loc : LocationNode) :
    scoreLocation query loc = specSimilarity query loc := by
  unfold scoreLocation specSimilarity
  dsimp only
  split
  · rfl
  · split
    · rw [Rat.mkRat_eq_div]
      norm_num
    · split
      · rw [Rat.mkRat_eq_div]
        norm_num
      · split
        · rw [Rat.mkRat_eq_div]
          norm_num
        · exact mkRat_half_fraction _ _

/-- C9 (amended) claim statement: `findLocationByName` returns at most 5
matches, all with similarity strictly above 0.3, in descending
similarity order, each scored by the tiered rule of `specSimilarity`
applied to the lowercased-and-trimmed query. -/
theorem findLocationByName_ranked (rawName : String) (g : Graph) :
    (findLocationByName rawName g).length ≤ 5 ∧
    (∀ m ∈ findLocationByName rawName g, (3 : ℚ)/10 < m.similarity) ∧
    SortedDesc (findLocationByName rawName g) ∧
    (∀ m ∈ findLocationByName rawName g, ∃ loc ∈ Graph.values g,
      m.id = loc.id ∧ m.name = loc.locationName ∧
      m.similarity = specSimilarity (trimStr (toLowerStr rawName)) loc) := by
  refine ⟨?_, ?_, ?_, ?_⟩
  · unfold findLocationByName
    exact List.length_take_le 5 _
  · intro m hm
    obtain ⟨loc, _, hmeq, hgt⟩ := findLocationByName_mem hm
    rw [hmeq]
    have h310 : (mkRat 3 10 : ℚ) = (3 : ℚ)/10 := by
      rw [Rat.mkRat_eq_div]
      norm_num
    simp only
    rw [← h310]
    exact hgt
  · unfold findLocationByName
    exact List.Pairwise.sublist (List.take_sublist 5 _) (sortDesc_sorted _)
  · intro m hm
    obtain ⟨loc, hloc, hmeq, _⟩ := findLocationByName_mem hm
    exact ⟨loc, hloc, by rw [hmeq], by rw [hmeq],
      by rw [hmeq]; exact scoreLocation_eq_spec _ _⟩

theorem jsStartsWith_empty (s : String) : jsStartsWith s "" = true := by
  unfold jsStartsWith
  exact decide_eq_true (List.nil_prefix)

theorem filterMap_length_all_some {α β : Type} (f : α → Option β) (l : List α)
    (h : ∀ x ∈ l, (f x).isSome) : (l.filterMap f).length = l.length := by
  induction l with
  | nil => rfl
  | cons a t ih =>
    obtain ⟨b, hb⟩ := Option.isSome_iff_exists.mp (h a (List.mem_cons_self a t))
    rw [List.filterMap_cons, hb, List.length_cons,
      ih (fun x hx => h x (List.mem_cons_of_mem a hx)), List.length_cons]

theorem scoreLocation_blank (loc : LocationNode) :
    scoreLocation "" loc =
      if toLowerStr loc.locationName = "" then 1 else mkRat 9 10 := by
  unfold scoreLocation
  by_cases hname : toLowerStr loc.locationName = ""
  · rw [if_pos hname, if_pos hname]
  · rw [if_neg hname, if_neg hname, if_pos (jsStartsWith_empty _)]

/-- C10 claim statement: a query that is blank after lowercasing and
trimming scores every node at least 0.9 (exactly 1 when the lowercased
name is itself empty), so the result has `min 5 (number of nodes)`
entries rather than none. -/
theorem findLocationByName_blank_query (rawName : String) (g : Graph)
    (hblank : trimStr (toLowerStr rawName) = "") :
    (∀ loc ∈ Graph.values g,
      scoreLocation (trimStr (toLowerStr rawName)) loc =
        if toLowerStr loc.locationName = "" then 1 else (9 : ℚ)/10) ∧
    (findLocationByName rawName g).length = min 5 g.length ∧
    (∀ m ∈ findLocationByName rawName g, (9 : ℚ)/10 ≤ m.similarity) := by
  have h910 : (mkRat 9 10 : ℚ) = (9 : ℚ)/10 := by
    rw [Rat.mkRat_eq_div]
    norm_num
  have hscore : ∀ loc : LocationNode,
      scoreLocation (trimStr (toLowerStr rawName)) loc =
        if toLowerStr loc.locationName = "" then 1 else (9 : ℚ)/10 := by
    intro loc
    rw [hblank, scoreLocation_blank loc, h910]
  have hgt : ∀ loc : LocationNode,
      mkRat 3 10 < scoreLocation (trimStr (toLowerStr rawName)) loc := by
    intro loc
    rw [hscore loc]
    have h310 : (mkRat 3 10 : ℚ) = (3 : ℚ)/10 := by
      rw [Rat.mkRat_eq_div]
      norm_num
    rw [h310]
    split <;> norm_num
  refine ⟨fun loc _ => hscore loc, ?_, ?_⟩
  · unfold findLocationByName
    rw [List.length_take, sortDesc_length, filterMap_length_all_some]
    · unfold Graph.values
      rw [List.length_map]
    · intro loc _
      rw [if_pos (hgt loc)]
      exact Option.isSome_some
  · intro m hm
    obtain ⟨loc, _, hmeq, _⟩ := findLocationByName_mem hm
    rw [hmeq]
    simp only
    rw [hscore loc]
    split <;> norm_num

/-! ## `upsertConnection` and `syncExits`: edge upserts (claims C1, C2, C4) -/
theorem upsertConnList_none_iff (conns : List Connection) (t : Nat) (label : String)
    (b : Bool) :
    upsertConnList conns t label b = none ↔ ∀ conn ∈ conns, conn.targetId ≠ t := by
  induction conns with
  | nil => simp [upsertConnList]
  | cons conn rest ih =>
    unfold upsertConnList
    by_cases hc : conn.targetId = t
    · simp [hc]
    · simp only [hc, if_false, List.mem_cons, Option.map_eq_none', ih]
      constructor
      · rintro hnone x (rfl | hx)
        · exact hc
        · exact hnone x hx
      · intro hall x hx
        exact hall x (Or.inr hx)

theorem upsertConnList_found {t : Nat} (label : String) (b : Bool) :
    ∀ (l1 : List Connection) (conn0 : Connection) (l2 : List Connection),
    (∀ x ∈ l1, x.targetId ≠ t) → conn0.targetId = t →
    upsertConnList (l1 ++ conn0 :: l2) t label b =
      some (l1 ++ { conn0 with
        label := some (strOr label (strOr (conn0.label.getD "") DEFAULT_EXIT_LABEL)),
        bidirectional := conn0.bidirectional || b } :: l2) := by
  intro l1
  induction l1 with
  | nil =>
    intro conn0 l2 _ hc0
    unfold upsertConnList
    simp [hc0]
  | cons x xs ih =>
    intro conn0 l2 hl1 hc0
    have hx : x.targetId ≠ t := hl1 x (List.mem_cons_self x xs)
    rw [List.cons_append]
    unfold upsertConnList
    rw [if_neg hx, ih conn0 l2 (fun y hy => hl1 y (List.mem_cons_of_mem x hy)) hc0]
    rfl

/-- Shape of an updated connection list: every connection either keeps
the target and bidirectional flag of an old connection, or targets `t`
and is the OR-updated old edge; every old target is still present; and a
connection to `t` is present. -/
theorem upsertConnList_some_cases {conns : List Connection} {t : Nat}
    {label : String} {b : Bool} {conns' : List Connection}
    (h : upsertConnList conns t label b = some conns') :
    (∀ conn' ∈ conns',
      (∃ conn ∈ conns, conn'.targetId = conn.targetId ∧
        conn'.bidirectional = conn.bidirectional) ∨
      (conn'.targetId = t ∧ ∃ conn ∈ conns, conn.targetId = t ∧
        conn'.bidirectional = (conn.bidirectional || b))) ∧
    (∀ conn ∈ conns, ∃ conn' ∈ conns', conn'.targetId = conn.targetId) ∧
    (∃ conn' ∈ conns', conn'.targetId = t) := by
  induction conns generalizing conns' with
  | nil => cases h
  | cons conn rest ih =>
    unfold upsertConnList at h
    by_cases hc : conn.targetId = t
    · rw [if_pos hc] at h
      obtain rfl := Option.some_inj.mp h
      refine ⟨?_, ?_, ?_⟩
      · intro conn' hconn'
        rcases List.mem_cons.mp hconn' with rfl | hmem
        · exact Or.inr ⟨hc, conn, List.mem_cons_self _ _, hc, rfl⟩
        · exact Or.inl ⟨conn', List.mem_cons_of_mem _ hmem, rfl, rfl⟩
      · intro x hx
        rcases List.mem_cons.mp hx with rfl | hmem
        · exact ⟨_, List.mem_cons_self _ _, hc.symm ▸ hc⟩
        · exact ⟨x, List.mem_cons_of_mem _ hmem, rfl⟩
      · exact ⟨_, List.mem_cons_self _ _, hc⟩
    · rw [if_neg hc] at h
      obtain ⟨rest', hrest', heq⟩ := Option.map_eq_some'.mp h
      obtain ⟨h1, h2, h3⟩ := ih hrest'
      subst heq
      refine ⟨?_, ?_, ?_⟩
      · intro conn' hconn'
        rcases List.mem_cons.mp hconn' with rfl | hmem
        · exact Or.inl ⟨conn', List.mem_cons_self _ _, rfl, rfl⟩
        · rcases h1 conn' hmem with ⟨c0, hc0, ht, hb⟩ | ⟨ht, c0, hc0, hct, hb⟩
          · exact Or.inl ⟨c0, List.mem_cons_of_mem _ hc0, ht, hb⟩
          · exact Or.inr ⟨ht, c0, List.mem_cons_of_mem _ hc0, hct, hb⟩
      · intro x hx
        rcases List.mem_cons.mp hx with rfl | hmem
        · exact ⟨x, List.mem_cons_self _ _, rfl⟩
        · obtain ⟨conn', hconn', ht⟩ := h2 x hmem
          exact ⟨conn', List.mem_cons_of_mem _ hconn', ht⟩
      · obtain ⟨conn', hconn', ht⟩ := h3
        exact ⟨conn', List.mem_cons_of_mem _ hconn', ht⟩

/-- The same shape facts for the node-level `upsertConnection` (covering
the append case too), plus: all non-connection fields are kept and the
counter does not decrease. -/
theorem upsertConnection_cases (node : LocationNode) (t : Nat) (label : String)
    (b : Bool) (c : Nat) :
    let r := upsertConnection node t label b c
    r.1 = { node with connections := r.1.connections } ∧
    (∀ conn' ∈ r.1.connections,
      (∃ conn ∈ node.connections, conn'.targetId = conn.targetId ∧
        conn'.bidirectional = conn.bidirectional) ∨
      (conn'.targetId = t ∧
        (conn'.bidirectional = b ∨ ∃ conn ∈ node.connections, conn.targetId = t ∧
          conn'.bidirectional = (conn.bidirectional || b)))) ∧
    (∀ conn ∈ node.connections, ∃ conn' ∈ r.1.connections,
      conn'.targetId = conn.targetId) ∧
    (∃ conn' ∈ r.1.connections, conn'.targetId = t) ∧
    c ≤ r.2 := by
  unfold upsertConnection
  cases hu : upsertConnList node.connections t label b with
  | some conns' =>
    obtain ⟨h1, h2, h3⟩ := upsertConnList_some_cases hu
    refine ⟨rfl, ?_, h2, h3, le_refl c⟩
    intro conn' hconn'
    rcases h1 conn' hconn' with ⟨c0, hc0, ht, hb⟩ | ⟨ht, c0, hc0, hct, hb⟩
    · exact Or.inl ⟨c0, hc0, ht, hb⟩
    · exact Or.inr ⟨ht, Or.inr ⟨c0, hc0, hct, hb⟩⟩
  | none =>
    refine ⟨rfl, ?_, ?_, ?_, Nat.le_succ c⟩
    · intro conn' hconn'
      rcases List.mem_append.mp hconn' with hmem | hmem
      · exact Or.inl ⟨conn', hmem, rfl, rfl⟩
      · simp only [List.mem_singleton] at hmem
        subst hmem
        exact Or.inr ⟨rfl, Or.inl rfl⟩
    · intro conn hconn
      exact ⟨conn, List.mem_append_left _ hconn, rfl⟩
    · exact ⟨_, List.mem_append_right _ (List.mem_singleton_self _), rfl⟩

theorem any_of_lookup_some {g : Graph} {k : Nat} {n : LocationNode}
    (h : lookupGraph g k = some n) : g.any (fun kv => kv.1 == k) = true := by
  rw [List.any_eq_true]
  exact ⟨(k, n), lookupGraph_mem h, by simp⟩

theorem upsertConnectionG_lookup_ne {g : Graph} {sid : Nat} (t : Nat)
    (label : String) (b : Bool) (c : Nat) {k : Nat} (hk : sid ≠ k) :
    lookupGraph (upsertConnectionG g sid t label b c).1 k = lookupGraph g k := by
  unfold upsertConnectionG
  cases hs : lookupGraph g sid with
  | none => rfl
  | some node =>
    exact lookupGraph_setGraph_ne _ hk

theorem upsertConnectionG_lookup_self {g : Graph} {sid : Nat} {node : LocationNode}
    (t : Nat) (label : String) (b : Bool) (c : Nat)
    (hs : lookupGraph g sid = some node) :
    lookupGraph (upsertConnectionG g sid t label b c).1 sid =
      some (upsertConnection node t label b c).1 := by
  unfold upsertConnectionG
  rw [hs]
  exact lookupGraph_setGraph_self _

theorem upsertConnectionG_counter {g : Graph} (sid t : Nat) (label : String)
    (b : Bool) (c : Nat) : c ≤ (upsertConnectionG g sid t label b c).2 := by
  unfold upsertConnectionG
  cases hs : lookupGraph g sid with
  | none => exact le_refl c
  | some node => exact (upsertConnection_cases node t label b c).2.2.2.2

theorem strOr_of_ne {a : String} (h : a ≠ "") (b : String) : strOr a b = a :=
  if_neg h

theorem DEFAULT_EXIT_LABEL_ne : DEFAULT_EXIT_LABEL ≠ "" := by decide

theorem syncExits_singleton (w : World) (c : Nat) (srcId : Nat)
    (payload : LocationPayload) (e : ExitDescriptor) (hexits : payload.exits = [e]) :
    syncExits w c srcId payload = syncExit w c srcId e := by
  unfold syncExits
  rw [hexits]
  rfl

/-- The no-skip branch of one exit sync, fully described: when no
indirect (depth ≥ 2) path pre-exists, the forward upsert runs, followed
by the reverse upsert when the exit is bidirectional. -/
theorem syncExit_noskip (w : World) (c : Nat) (srcId : Nat) (e : ExitDescriptor)
    (hnopath : hasPath (ensureLocation w c e.name none).2.1.graph srcId
      (ensureLocation w c e.name none).1.id 2 = false) :
    syncExit w c srcId e =
      (let r := ensureLocation w c e.name none
       let label := strOr ((e.label.map trimStr).getD "") DEFAULT_EXIT_LABEL
       let bidir := e.bidirectional.getD true
       let f := upsertConnectionG r.2.1.graph srcId r.1.id label bidir r.2.2
       let b := if bidir then upsertConnectionG f.1 r.1.id srcId label bidir f.2 else f
       ({ r.2.1 with graph := b.1 }, b.2)) := by
  unfold syncExit
  dsimp only
  rw [if_neg (by rw [hnopath]; exact Bool.false_ne_true)]

/-- C1 (amended) claim statement: syncing a bidirectional (or defaulted)
exit descriptor creates both the source→target and target→source edges —
provided no indirect path of depth ≥ 2 (the skip condition in the source)
already connects source to target when the exit is processed. -/
theorem syncExits_bidirectional_repair (w : World) (c : Nat) (srcId : Nat)
    (payload : LocationPayload) (e : ExitDescriptor)
    (hexits : payload.exits = [e])
    (hwf : WFG w.graph c)
    (hsrc : (lookupGraph w.graph srcId).isSome)
    (hbidir : e.bidirectional.getD true = true)
    (hnopath : hasPath (ensureLocation w c e.name none).2.1.graph srcId
      (ensureLocation w c e.name none).1.id 2 = false) :
    (∃ node, lookupGraph (syncExits w c srcId payload).1.graph srcId = some node ∧
      ∃ conn ∈ node.connections,
        conn.targetId = (ensureLocation w c e.name none).1.id) ∧
    (∃ node, lookupGraph (syncExits w c srcId payload).1.graph
        (ensureLocation w c e.name none).1.id = some node ∧
      ∃ conn ∈ node.connections, conn.targetId = srcId) := by
  rw [syncExits_singleton w c srcId payload e hexits, syncExit_noskip w c srcId e hnopath]
  dsimp only
  rw [if_pos hbidir, hbidir]
  obtain ⟨srcNode, hsrcNode⟩ := Option.isSome_iff_exists.mp hsrc
  have hsrc' : lookupGraph (ensureLocation w c e.name none).2.1.graph srcId = some srcNode :=
    (ensureLocation_frame w c e.name none hwf).2.2.2.1 srcId srcNode hsrcNode
  have htgt : lookupGraph (ensureLocation w c e.name none).2.1.graph
      (ensureLocation w c e.name none).1.id = some (ensureLocation w c e.name none).1 :=
    ensureLocation_result_lookup w c e.name none hwf
  set g0 := (ensureLocation w c e.name none).2.1.graph with hg0
  set tid := (ensureLocation w c e.name none).1.id with htid
  set label := strOr ((e.label.map trimStr).getD "") DEFAULT_EXIT_LABEL with hlabel
  set c0 := (ensureLocation w c e.name none).2.2 with hc0
  by_cases hids : srcId = tid
  · -- self-loop: both upserts hit the same node
    subst hids
    have h1 : lookupGraph (upsertConnectionG g0 tid tid label true c0).1 tid =
        some (upsertConnection srcNode tid label true c0).1 :=
      upsertConnectionG_lookup_self tid label true c0 hsrc'
    set srcNode1 := (upsertConnection srcNode tid label true c0).1 with hsn1
    set c1 := (upsertConnectionG g0 tid tid label true c0).2 with hc1
    have h2 : lookupGraph
        (upsertConnectionG (upsertConnectionG g0 tid tid label true c0).1
          tid tid label true c1).1 tid =
        some (upsertConnection srcNode1 tid label true c1).1 :=
      upsertConnectionG_lookup_self tid label true c1 h1
    have hc := upsertConnection_cases srcNode1 tid label true c1
    refine ⟨⟨_, h2, ?_⟩, ⟨_, h2, hc.2.2.2.1⟩⟩
    · -- the forward edge to tid survives the reverse upsert
      have hfwd : ∃ conn ∈ srcNode1.connections, conn.targetId = tid :=
        (upsertConnection_cases srcNode tid label true c0).2.2.2.1
      obtain ⟨conn, hconn, ht⟩ := hfwd
      obtain ⟨conn', hconn', ht'⟩ := hc.2.2.1 conn hconn
      exact ⟨conn', hconn', ht' ▸ ht⟩
  · have h1 : lookupGraph (upsertConnectionG g0 srcId tid label true c0).1 srcId =
        some (upsertConnection srcNode tid label true c0).1 :=
      upsertConnectionG_lookup_self tid label true c0 hsrc'
    have h1t : lookupGraph (upsertConnectionG g0 srcId tid label true c0).1 tid =
        some (ensureLocation w c e.name none).1 := by
      rw [upsertConnectionG_lookup_ne tid label true c0 hids]
      exact htgt
    set c1 := (upsertConnectionG g0 srcId tid label true c0).2 with hc1
    have h2t : lookupGraph
        (upsertConnectionG (upsertConnectionG g0 srcId tid label true c0).1
          tid srcId label true c1).1 tid =
        some (upsertConnection (ensureLocation w c e.name none).1 srcId label true c1).1 :=
      upsertConnectionG_lookup_self srcId label true c1 h1t
    have h2s : lookupGraph
        (upsertConnectionG (upsertConnectionG g0 srcId tid label true c0).1
          tid srcId label true c1).1 srcId =
        some (upsertConnection srcNode tid label true c0).1 := by
      rw [upsertConnectionG_lookup_ne srcId label true c1 (fun hh => hids hh.symm)]
      exact h1
    refine ⟨⟨_, h2s, (upsertConnection_cases srcNode tid label true c0).2.2.2.1⟩,
      ⟨_, h2t, (upsertConnection_cases (ensureLocation w c e.name none).1
        srcId label true c1).2.2.2.1⟩⟩

theorem strOr_empty (b : String) : strOr "" b = b := if_pos rfl

/-- C2 (amended) claim statement: syncing a blank-label exit onto an
existing edge sets the edge's label to the generic default (the previous
label is **not** kept: `syncExits` substitutes the default before
`upsertConnection` can consult the old label) and ORs the bidirectional
flag — provided no indirect path of depth ≥ 2 pre-exists (else the edge
is left entirely unchanged by the skip branch). -/
theorem syncExits_blank_label (w : World) (c : Nat) (srcId : Nat)
    (payload : LocationPayload) (e : ExitDescriptor)
    (srcNode : LocationNode) (l1 : List Connection) (conn0 : Connection)
    (l2 : List Connection)
    (hexits : payload.exits = [e])
    (hwf : WFG w.graph c)
    (hsrc : lookupGraph w.graph srcId = some srcNode)
    (hconns : srcNode.connections = l1 ++ conn0 :: l2)
    (hl1 : ∀ x ∈ l1, x.targetId ≠ (ensureLocation w c e.name none).1.id)
    (hc0 : conn0.targetId = (ensureLocation w c e.name none).1.id)
    (hblank : (e.label.map trimStr).getD "" = "")
    (hnopath : hasPath (ensureLocation w c e.name none).2.1.graph srcId
      (ensureLocation w c e.name none).1.id 2 = false) :
    ∃ node, lookupGraph (syncExits w c srcId payload).1.graph srcId = some node ∧
      node.connections = l1 ++ { conn0 with
        label := some DEFAULT_EXIT_LABEL,
        bidirectional := conn0.bidirectional || e.bidirectional.getD true } :: l2 := by
  rw [syncExits_singleton w c srcId payload e hexits, syncExit_noskip w c srcId e hnopath]
  dsimp only
  rw [hblank, strOr_empty]
  have hsrc' : lookupGraph (ensureLocation w c e.name none).2.1.graph srcId =
      some srcNode :=
    (ensureLocation_frame w c e.name none hwf).2.2.2.1 srcId srcNode hsrc
  set tid := (ensureLocation w c e.name none).1.id with htid
  set g0 := (ensureLocation w c e.name none).2.1.graph with hg0
  set c0 := (ensureLocation w c e.name none).2.2 with hc00
  cases hbd : e.bidirectional.getD true with
  | false =>
    rw [if_neg Bool.false_ne_true]
    have hup : upsertConnList srcNode.connections tid DEFAULT_EXIT_LABEL false =
        some (l1 ++ { conn0 with label := some DEFAULT_EXIT_LABEL, bidirectional := conn0.bidirectional || false } :: l2) := by
      rw [hconns, upsertConnList_found DEFAULT_EXIT_LABEL false l1 conn0 l2 hl1 hc0,
        strOr_of_ne DEFAULT_EXIT_LABEL_ne]
    refine ⟨{ srcNode with connections := l1 ++ { conn0 with label := some DEFAULT_EXIT_LABEL, bidirectional := conn0.bidirectional || false } :: l2 }, ?_, rfl⟩
    rw [upsertConnectionG_lookup_self tid DEFAULT_EXIT_LABEL false c0 hsrc']
    unfold upsertConnection
    rw [hup]
  | true =>
    rw [if_pos rfl]
    have hup : upsertConnList srcNode.connections tid DEFAULT_EXIT_LABEL true =
        some (l1 ++ { conn0 with label := some DEFAULT_EXIT_LABEL, bidirectional := conn0.bidirectional || true } :: l2) := by
      rw [hconns, upsertConnList_found DEFAULT_EXIT_LABEL true l1 conn0 l2 hl1 hc0,
        strOr_of_ne DEFAULT_EXIT_LABEL_ne]
    have hnode1 : (upsertConnection srcNode tid DEFAULT_EXIT_LABEL true c0).1 =
        { srcNode with connections := l1 ++ { conn0 with label := some DEFAULT_EXIT_LABEL, bidirectional := conn0.bidirectional || true } :: l2 } := by
      unfold upsertConnection
      rw [hup]
    have h1 : lookupGraph (upsertConnectionG g0 srcId tid DEFAULT_EXIT_LABEL true c0).1
        srcId = some ({ srcNode with connections := l1 ++ { conn0 with label := some DEFAULT_EXIT_LABEL, bidirectional := conn0.bidirectional || true } :: l2 }) := by
      rw [upsertConnectionG_lookup_self tid DEFAULT_EXIT_LABEL true c0 hsrc', hnode1]
    set c1 := (upsertConnectionG g0 srcId tid DEFAULT_EXIT_LABEL true c0).2 with hc1
    by_cases hids : tid = srcId
    · -- self-loop: the reverse upsert updates the same connection again,
      -- to the same values
      rw [← hids] at h1 ⊢
      have hl1' : ∀ x ∈ l1, x.targetId ≠ tid := hl1
      have hc0' : ({ conn0 with label := some DEFAULT_EXIT_LABEL, bidirectional := conn0.bidirectional || true } : Connection).targetId = tid := hc0
      have hup2 := upsertConnList_found DEFAULT_EXIT_LABEL true l1 ({ conn0 with label := some DEFAULT_EXIT_LABEL, bidirectional := conn0.bidirectional || true }) l2 hl1' hc0'
      refine ⟨_, upsertConnectionG_lookup_self tid DEFAULT_EXIT_LABEL true c1 h1, ?_⟩
      unfold upsertConnection
      dsimp only
      rw [hup2]
      dsimp only
      rw [strOr_of_ne DEFAULT_EXIT_LABEL_ne]
      simp [Bool.or_assoc, Bool.or_self]
    · refine ⟨{ srcNode with connections := l1 ++ { conn0 with label := some DEFAULT_EXIT_LABEL, bidirectional := conn0.bidirectional || true } :: l2 }, ?_, rfl⟩
      rw [upsertConnectionG_lookup_ne srcId DEFAULT_EXIT_LABEL true c1 hids]
      exact h1

/-- C1 counterexample: a bidirectional-by-default exit `Square` synced
from `A` while an indirect path `A → B → Square` exists is skipped
outright — the graph is unchanged and no `A → Square` edge exists
afterwards, contradicting the claim that both edges always exist. -/
theorem syncExits_skip_counterexample :
    (ensureLocation cexWorldC1 10 "Square" none).1.id = 2 ∧
    (syncExits cexWorldC1 10 0 cexPayloadC1).1.graph = cexWorldC1.graph ∧
    ((lookupGraph (syncExits cexWorldC1 10 0 cexPayloadC1).1.graph 0).map
      (fun node => node.connections.all (fun conn => conn.targetId != 2))) = some true := by
  decide

/-- C2 counterexample: syncing a blank-label exit onto `A`'s existing
edge to `B` replaces the label `"north passage"` with the generic
default instead of keeping it. -/
theorem syncExits_blank_label_counterexample :
    ((lookupGraph (syncExits cexWorldC2 10 0 cexPayloadC2).1.graph 0).map
      (fun node => node.connections.map (fun conn => conn.label))) =
        some [some DEFAULT_EXIT_LABEL] ∧
    some DEFAULT_EXIT_LABEL ≠ some "north passage" := by
  decide

/-- C3 counterexample: `getRoute` on a self-query for an id not present
in the graph reports `exists = true` with an empty path, so the returned
path does not include the endpoints. -/
theorem getRoute_missing_self_counterexample :
    (getRoute 0 0 ([] : Graph)).pathExists = true ∧
    (getRoute 0 0 ([] : Graph)).path = [] ∧
    (getRoute 0 0 ([] : Graph)).totalDistance = 0 := by
  decide

/-- C9 counterexample: for the node named `" Tavern"` and the query
`"tavern"`, the node's `normalize`d name equals the query, yet the score
assigned is 0.8 (the name-substring rule), not 1.0 as the claim's first
rule demands — the code compares the lowercased but untrimmed name. -/
theorem findLocationByName_normalized_counterexample :
    normalize cexLocC9.locationName = trimStr (toLowerStr "tavern") ∧
    (findLocationByName "tavern" [(0, cexLocC9)]).map (fun m => m.similarity) =
      [mkRat 8 10] ∧
    (mkRat 8 10 : ℚ) ≠ 1 := by
  decide

theorem backedge_setGraph {g : Graph} {sid : Nat} {srcNode node2 : LocationNode}
    (hs : lookupGraph g sid = some srcNode)
    (hpres : ∀ conn ∈ srcNode.connections,
      ∃ conn' ∈ node2.connections, conn'.targetId = conn.targetId)
    {t a : Nat} (h : BackEdge g t a) : BackEdge (setGraph g sid node2) t a := by
  obtain ⟨tnode, hl, conn2, hconn2, hta⟩ := h
  by_cases ht : sid = t
  · subst ht
    rw [hs] at hl
    obtain rfl := Option.some_inj.mp hl
    obtain ⟨conn', hconn', ht'⟩ := hpres conn2 hconn2
    exact ⟨node2, lookupGraph_setGraph_self _, conn', hconn', ht'.trans hta⟩
  · exact ⟨tnode, by rw [lookupGraph_setGraph_ne _ ht]; exact hl, conn2, hconn2, hta⟩

/-- The forward upsert of `syncExits` preserves the invariant up to the
edge it just wrote. -/
theorem BidirOKExcept_of_upsert_forward {g : Graph} {sid tid : Nat}
    {srcNode : LocationNode} (label : String) (b : Bool) (c : Nat)
    (hs : lookupGraph g sid = some srcNode) (hinv : BidirOK g) :
    BidirOKExcept (setGraph g sid (upsertConnection srcNode tid label b c).1) sid tid := by
  obtain ⟨_, hshape, hpres, _, _⟩ := upsertConnection_cases srcNode tid label b c
  intro kv hkv conn hconn hb
  rcases mem_setGraph hkv with rfl | ⟨hmem, _⟩
  · rcases hshape conn hconn with ⟨c0, hc0, ht, hb0⟩ | ⟨ht, _⟩
    · have hb0' : c0.bidirectional = true := by rw [← hb0]; exact hb
      have hold := hinv (sid, srcNode) (lookupGraph_mem hs) c0 hc0 hb0'
      right
      rw [ht]
      exact backedge_setGraph hs hpres hold
    · exact Or.inl ⟨rfl, ht⟩
  · exact Or.inr (backedge_setGraph hs hpres (hinv kv hmem conn hconn hb))

/-- A non-bidirectional forward upsert preserves the invariant outright
(it can only keep, never raise, the bidirectional flag). -/
theorem BidirOK_of_upsert_forward_false {g : Graph} {sid tid : Nat}
    {srcNode : LocationNode} (label : String) (c : Nat)
    (hs : lookupGraph g sid = some srcNode) (hinv : BidirOK g) :
    BidirOK (setGraph g sid (upsertConnection srcNode tid label false c).1) := by
  obtain ⟨_, hshape, hpres, _, _⟩ := upsertConnection_cases srcNode tid label false c
  intro kv hkv conn hconn hb
  rcases mem_setGraph hkv with rfl | ⟨hmem, _⟩
  · rcases hshape conn hconn with ⟨c0, hc0, ht, hb0⟩ | ⟨ht, hcase⟩
    · have hb0' : c0.bidirectional = true := by rw [← hb0]; exact hb
      have hold := hinv (sid, srcNode) (lookupGraph_mem hs) c0 hc0 hb0'
      rw [ht]
      exact backedge_setGraph hs hpres hold
    · rcases hcase with hbf | ⟨c0, hc0, hct, hb0⟩
      · rw [hb] at hbf
        cases hbf
      · have hb0' : c0.bidirectional = true := by
          have hbb : conn.bidirectional = c0.bidirectional := by
            rw [hb0, Bool.or_false]
          rw [← hbb]
          exact hb
        have hold := hinv (sid, srcNode) (lookupGraph_mem hs) c0 hc0 hb0'
        have hold2 : BackEdge g conn.targetId sid := by
          rw [ht, ← hct]
          exact hold
        exact backedge_setGraph hs hpres hold2
  · exact backedge_setGraph hs hpres (hinv kv hmem conn hconn hb)

/-- The reverse upsert restores the full invariant: the freshly written
reverse edge covers the excepted forward edge, and the forward node's
edge to the target covers the reverse edge itself. -/
theorem BidirOK_of_upsert_reverse {g1 : Graph} {sid tid : Nat}
    {tgtNode srcNode1 : LocationNode} (label : String) (b : Bool) (c : Nat)
    (ht : lookupGraph g1 tid = some tgtNode)
    (hs1 : lookupGraph g1 sid = some srcNode1)
    (hfwd : ∃ conn ∈ srcNode1.connections, conn.targetId = tid)
    (hexc : BidirOKExcept g1 sid tid) :
    BidirOK (setGraph g1 tid (upsertConnection tgtNode sid label b c).1) := by
  obtain ⟨_, hshape, hpres, hhas, _⟩ := upsertConnection_cases tgtNode sid label b c
  have hlook2 : lookupGraph (setGraph g1 tid (upsertConnection tgtNode sid label b c).1) tid
      = some (upsertConnection tgtNode sid label b c).1 := lookupGraph_setGraph_self _
  intro kv hkv conn hconn hb'
  rcases mem_setGraph hkv with rfl | ⟨hmem, _⟩
  · rcases hshape conn hconn with ⟨c0, hc0, hct, hb0⟩ | ⟨hct, _⟩
    · have hb0' : c0.bidirectional = true := by rw [← hb0]; exact hb'
      rcases hexc (tid, tgtNode) (lookupGraph_mem ht) c0 hc0 hb0' with ⟨hkt, hctid⟩ | hback
      · rw [hct, hctid]
        refine ⟨_, hlook2, ?_⟩
        obtain ⟨c2, hc2, hc2t⟩ := hhas
        exact ⟨c2, hc2, hc2t.trans hkt.symm⟩
      · rw [hct]
        exact backedge_setGraph ht hpres hback
    · rw [hct]
      by_cases hst : tid = sid
      · subst hst
        exact ⟨_, hlook2, hhas⟩
      · refine ⟨srcNode1, ?_, hfwd⟩
        rw [lookupGraph_setGraph_ne _ hst]
        exact hs1
  · rcases hexc kv hmem conn hconn hb' with ⟨hks, hct⟩ | hback
    · rw [hct, hks]
      exact ⟨_, hlook2, hhas⟩
    · exact backedge_setGraph ht hpres hback

/-- Unfolding equation of `upsertConnectionG` when the source node is
present. -/
theorem upsertConnectionG_eq_some {g : Graph} {sid : Nat} {node : LocationNode}
    (t : Nat) (label : String) (b : Bool) (c : Nat)
    (hs : lookupGraph g sid = some node) :
    upsertConnectionG g sid t label b c =
      (setGraph g sid (upsertConnection node t label b c).1,
       (upsertConnection node t label b c).2) := by
  unfold upsertConnectionG
  rw [hs]

theorem lookupGraph_setGraph_isSome {g : Graph} {k k2 : Nat} (v : LocationNode)
    (h : (lookupGraph g k2).isSome = true) :
    (lookupGraph (setGraph g k v) k2).isSome = true := by
  by_cases hk : k = k2
  · subst hk
    rw [lookupGraph_setGraph_self]
    rfl
  · rw [lookupGraph_setGraph_ne _ hk]
    exact h

/-- `upsertConnection` (on the graph) keeps the three well-formedness
facts, at the updated counter. -/
theorem upsertConnectionG_WFG {g : Graph} {c : Nat} (sid t : Nat) (label : String)
    (b : Bool) (hwf : WFG g c) :
    WFG (upsertConnectionG g sid t label b c).1 (upsertConnectionG g sid t label b c).2 := by
  obtain ⟨hfresh, hKC, hND⟩ := hwf
  unfold upsertConnectionG
  cases hs : lookupGraph g sid with
  | none => exact ⟨hfresh, hKC, hND⟩
  | some node =>
    dsimp only
    obtain ⟨hfields, _, _, _, hc⟩ := upsertConnection_cases node t label b c
    have hid : (upsertConnection node t label b c).1.id = node.id := by
      conv_lhs => rw [hfields]
    have hany : g.any (fun kv => kv.1 == sid) = true := any_of_lookup_some hs
    refine ⟨?_, ?_, ?_⟩
    · intro kv hkv
      rcases mem_setGraph hkv with rfl | ⟨hmem, _⟩
      · exact lt_of_lt_of_le (hfresh (sid, node) (lookupGraph_mem hs)) hc
      · exact lt_of_lt_of_le (hfresh kv hmem) hc
    · intro kv hkv
      rcases mem_setGraph hkv with rfl | ⟨hmem, _⟩
      · show (upsertConnection node t label b c).1.id = sid
        rw [hid]
        exact hKC (sid, node) (lookupGraph_mem hs)
      · exact hKC kv hmem
    · show KeysNodup (setGraph g sid _)
      unfold KeysNodup
      rw [setGraph_keys hany]
      exact hND

/-- `ensureLocation` preserves the bidirectional-edge invariant (a found
node changes nothing; a created node has no connections). -/
theorem ensureLocation_BidirOK (w : World) (c : Nat) (name : String)
    (hint : Option String) (hfresh : Fresh w.graph c) (hinv : BidirOK w.graph) :
    BidirOK (ensureLocation w c name hint).2.1.graph := by
  rcases ensureLocation_cases w c name hint hfresh with ⟨node, heq, _⟩ | heq <;> rw [heq]
  · exact hinv
  · intro kv hkv conn hconn hb
    rcases List.mem_append.mp hkv with hmem | hmem
    · obtain ⟨tnode, hl, hbk⟩ := hinv kv hmem conn hconn hb
      exact ⟨tnode, lookupGraph_append_some _ hl, hbk⟩
    · simp only [List.mem_singleton] at hmem
      subst hmem
      exact absurd hconn (List.not_mem_nil conn)

/-- Replacing a stored node by one with the same connections preserves
the invariant. -/
theorem BidirOK_setGraph_same_conns {g : Graph} {k : Nat} {node node2 : LocationNode}
    (hl : lookupGraph g k = some node)
    (hconns : node2.connections = node.connections)
    (hinv : BidirOK g) : BidirOK (setGraph g k node2) := by
  have hpres : ∀ c0 ∈ node.connections,
      ∃ c' ∈ node2.connections, c'.targetId = c0.targetId := by
    intro c0 hc0
    exact ⟨c0, by rw [hconns]; exact hc0, rfl⟩
  intro kv hkv conn hconn hb
  rcases mem_setGraph hkv with rfl | ⟨hmem, _⟩
  · have hconn' : conn ∈ node.connections := by rw [← hconns]; exact hconn
    exact backedge_setGraph hl hpres (hinv (k, node) (lookupGraph_mem hl) conn hconn' hb)
  · exact backedge_setGraph hl hpres (hinv kv hmem conn hconn hb)

/-- Replacing an existing key by a node carrying that key as its id
preserves well-formedness at any not-smaller counter. -/
theorem WFG_setGraph_existing {g : Graph} {c c2 : Nat} {k : Nat} (node2 : LocationNode)
    (hany : g.any (fun kv => kv.1 == k) = true)
    (hid : node2.id = k) (hwf : WFG g c) (hcc : c ≤ c2) :
    WFG (setGraph g k node2) c2 := by
  obtain ⟨hfresh, hKC, hND⟩ := hwf
  refine ⟨?_, ?_, ?_⟩
  · intro kv hkv
    rcases mem_setGraph hkv with rfl | ⟨hmem, _⟩
    · obtain ⟨kv0, hkv0, he⟩ := List.any_eq_true.mp hany
      have hk0 : kv0.1 = k := by simpa using he
      have := hfresh kv0 hkv0
      rw [hk0] at this
      exact lt_of_lt_of_le this hcc
    · exact lt_of_lt_of_le (hfresh kv hmem) hcc
  · intro kv hkv
    rcases mem_setGraph hkv with rfl | ⟨hmem, _⟩
    · exact hid
    · exact hKC kv hmem
  · unfold KeysNodup
    rw [setGraph_keys hany]
    exact hND

theorem mergeItems_counter_mono (existingItems : List Item) (owner : Option Nat) :
    ∀ (descriptors : List ItemDescriptor) (c : Nat),
    c ≤ (mergeItems existingItems descriptors owner c).2 := by
  intro descriptors
  induction descriptors with
  | nil => intro c; exact le_refl c
  | cons d rest ih =>
    intro c
    cases hfind : existingItems.reverse.find?
        (fun it => normalize it.name == normalize d.name) with
    | some ex =>
      rw [mergeItems_cons_some hfind]
      exact ih c
    | none =>
      rw [mergeItems_cons_none hfind]
      exact le_trans (Nat.le_succ c) (ih (c + 1))

/-- The skip branch of one exit sync. -/
theorem syncExit_skip (w : World) (c : Nat) (srcId : Nat) (e : ExitDescriptor)
    (hpath : hasPath (ensureLocation w c e.name none).2.1.graph srcId
      (ensureLocation w c e.name none).1.id 2 = true) :
    syncExit w c srcId e =
      ((ensureLocation w c e.name none).2.1, (ensureLocation w c e.name none).2.2) := by
  unfold syncExit
  dsimp only
  rw [if_pos hpath]

/-- A non-bidirectional upsert on the graph keeps well-formedness, the
presence of the source node, and the invariant. -/
theorem upsertG_good_false (g1 : Graph) (c1 : Nat) (srcId tid : Nat) (label : String)
    (hwf1 : WFG g1 c1) (hsrc1 : (lookupGraph g1 srcId).isSome = true)
    (hinv1 : BidirOK g1) :
    WFG (upsertConnectionG g1 srcId tid label false c1).1
      (upsertConnectionG g1 srcId tid label false c1).2 ∧
    (lookupGraph (upsertConnectionG g1 srcId tid label false c1).1 srcId).isSome = true ∧
    BidirOK (upsertConnectionG g1 srcId tid label false c1).1 := by
  obtain ⟨srcNode1, hs1⟩ := Option.isSome_iff_exists.mp hsrc1
  have heq := upsertConnectionG_eq_some tid label false c1 hs1
  refine ⟨upsertConnectionG_WFG srcId tid label false hwf1, ?_, ?_⟩
  · rw [heq]
    show (lookupGraph (setGraph g1 srcId _) srcId).isSome = true
    rw [lookupGraph_setGraph_self]
    rfl
  · rw [heq]
    exact BidirOK_of_upsert_forward_false label c1 hs1 hinv1

/-- A bidirectional upsert pair (forward then reverse) keeps
well-formedness, the presence of the source node, and the invariant. -/
theorem upsertG_good_true (g1 : Graph) (c1 : Nat) (srcId tid : Nat) (label : String)
    (hwf1 : WFG g1 c1) (hsrc1 : (lookupGraph g1 srcId).isSome = true)
    (htid : (lookupGraph g1 tid).isSome = true) (hinv1 : BidirOK g1) :
    WFG (upsertConnectionG (upsertConnectionG g1 srcId tid label true c1).1 tid srcId
        label true (upsertConnectionG g1 srcId tid label true c1).2).1
      (upsertConnectionG (upsertConnectionG g1 srcId tid label true c1).1 tid srcId
        label true (upsertConnectionG g1 srcId tid label true c1).2).2 ∧
    (lookupGraph (upsertConnectionG (upsertConnectionG g1 srcId tid label true c1).1 tid
        srcId label true (upsertConnectionG g1 srcId tid label true c1).2).1
      srcId).isSome = true ∧
    BidirOK (upsertConnectionG (upsertConnectionG g1 srcId tid label true c1).1 tid srcId
        label true (upsertConnectionG g1 srcId tid label true c1).2).1 := by
  obtain ⟨srcNode1, hs1⟩ := Option.isSome_iff_exists.mp hsrc1
  have heqf := upsertConnectionG_eq_some tid label true c1 hs1
  have hwf_f : WFG (upsertConnectionG g1 srcId tid label true c1).1
      (upsertConnectionG g1 srcId tid label true c1).2 :=
    upsertConnectionG_WFG srcId tid label true hwf1
  have hexc : BidirOKExcept (upsertConnectionG g1 srcId tid label true c1).1 srcId tid := by
    rw [heqf]
    exact BidirOKExcept_of_upsert_forward label true c1 hs1 hinv1
  have hs1' : lookupGraph (upsertConnectionG g1 srcId tid label true c1).1 srcId =
      some (upsertConnection srcNode1 tid label true c1).1 := by
    rw [heqf]
    exact lookupGraph_setGraph_self _
  have htid' : (lookupGraph (upsertConnectionG g1 srcId tid label true c1).1 tid).isSome
      = true := by
    rw [heqf]
    exact lookupGraph_setGraph_isSome _ htid
  obtain ⟨tgtNode1, ht1⟩ := Option.isSome_iff_exists.mp htid'
  have heqr := upsertConnectionG_eq_some srcId label true
    (upsertConnectionG g1 srcId tid label true c1).2 ht1
  refine ⟨upsertConnectionG_WFG tid srcId label true hwf_f, ?_, ?_⟩
  · rw [heqr]
    exact lookupGraph_setGraph_isSome _ (by rw [hs1']; rfl)
  · rw [heqr]
    exact BidirOK_of_upsert_reverse label true _ ht1 hs1'
      (upsertConnection_cases srcNode1 tid label true c1).2.2.2.1 hexc

/-- One exit sync preserves well-formedness, the presence of the source
node, and the bidirectional-edge invariant. -/
theorem syncExit_good (w : World) (c : Nat) (srcId : Nat) (e : ExitDescriptor)
    (hwf : WFG w.graph c) (hsrc : (lookupGraph w.graph srcId).isSome = true)
    (hinv : BidirOK w.graph) :
    WFG (syncExit w c srcId e).1.graph (syncExit w c srcId e).2 ∧
    (lookupGraph (syncExit w c srcId e).1.graph srcId).isSome = true ∧
    BidirOK (syncExit w c srcId e).1.graph := by
  obtain ⟨hgrow, hwf1, hcc1, hlook1, _⟩ := ensureLocation_frame w c e.name none hwf
  have hinv1 : BidirOK (ensureLocation w c e.name none).2.1.graph :=
    ensureLocation_BidirOK w c e.name none hwf.1 hinv
  have hsrc1 : (lookupGraph (ensureLocation w c e.name none).2.1.graph srcId).isSome
      = true := by
    obtain ⟨n, hn⟩ := Option.isSome_iff_exists.mp hsrc
    rw [hlook1 srcId n hn]
    rfl
  have htid : (lookupGraph (ensureLocation w c e.name none).2.1.graph
      (ensureLocation w c e.name none).1.id).isSome = true := by
    rw [ensureLocation_result_lookup w c e.name none hwf]
    rfl
  cases hpath : hasPath (ensureLocation w c e.name none).2.1.graph srcId
      (ensureLocation w c e.name none).1.id 2 with
  | true =>
    rw [syncExit_skip w c srcId e hpath]
    exact ⟨hwf1, hsrc1, hinv1⟩
  | false =>
    rw [syncExit_noskip w c srcId e hpath]
    dsimp only
    cases hbd : e.bidirectional.getD true with
    | false =>
      simp only [if_neg Bool.false_ne_true]
      exact upsertG_good_false _ _ srcId _ _ hwf1 hsrc1 hinv1
    | true =>
      simp only [if_pos rfl]
      exact upsertG_good_true _ _ srcId _ _ hwf1 hsrc1 htid hinv1

/-- `syncExits` (the whole `forEach`) preserves well-formedness, the
presence of the source node, and the invariant. -/
theorem syncExits_good (payload : LocationPayload) (srcId : Nat) :
    ∀ (w : World) (c : Nat), WFG w.graph c →
    (lookupGraph w.graph srcId).isSome = true → BidirOK w.graph →
    WFG (syncExits w c srcId payload).1.graph (syncExits w c srcId payload).2 ∧
    (lookupGraph (syncExits w c srcId payload).1.graph srcId).isSome = true ∧
    BidirOK (syncExits w c srcId payload).1.graph := by
  unfold syncExits
  generalize payload.exits = exits
  induction exits with
  | nil => exact fun w c hwf hsrc hinv => ⟨hwf, hsrc, hinv⟩
  | cons e rest ih =>
    intro w c hwf hsrc hinv
    rw [List.foldl_cons]
    obtain ⟨h1, h2, h3⟩ := syncExit_good w c srcId e hwf hsrc hinv
    exact ih (syncExit w c srcId e).1 (syncExit w c srcId e).2 h1 h2 h3

/-- Unfolding equation of `upsertLocationFromPayload` in terms of
`payloadNode`. -/
theorem upsertLocationFromPayload_eq (w : World) (c : Nat) (payload : LocationPayload)
    (disc : Bool) (fmd : Option String) :
    upsertLocationFromPayload w c payload disc fmd =
      ((ensureLocation w c payload.name payload.mapDescription).1.id,
       syncExits
         { (ensureLocation w c payload.name payload.mapDescription).2.1 with
           graph := setGraph
             (ensureLocation w c payload.name payload.mapDescription).2.1.graph
             (ensureLocation w c payload.name payload.mapDescription).1.id
             (payloadNode (ensureLocation w c payload.name payload.mapDescription).1
               payload disc fmd
               (ensureLocation w c payload.name payload.mapDescription).2.2) }
         (mergeItems (ensureLocation w c payload.name payload.mapDescription).1.items
           payload.items none
           (ensureLocation w c payload.name payload.mapDescription).2.2).2
         (ensureLocation w c payload.name payload.mapDescription).1.id payload) := rfl

/-- `upsertLocationFromPayload` preserves well-formedness and the
invariant. -/
theorem upsertLocationFromPayload_good (w : World) (c : Nat) (payload : LocationPayload)
    (disc : Bool) (fmd : Option String) (hwf : WFG w.graph c) (hinv : BidirOK w.graph) :
    WFG (upsertLocationFromPayload w c payload disc fmd).2.1.graph
      (upsertLocationFromPayload w c payload disc fmd).2.2 ∧
    BidirOK (upsertLocationFromPayload w c payload disc fmd).2.1.graph := by
  obtain ⟨hgrow, hwf1, hcc1, hlook1, _⟩ :=
    ensureLocation_frame w c payload.name payload.mapDescription hwf
  have hinv1 : BidirOK (ensureLocation w c payload.name payload.mapDescription).2.1.graph :=
    ensureLocation_BidirOK w c payload.name payload.mapDescription hwf.1 hinv
  have hlook : lookupGraph (ensureLocation w c payload.name payload.mapDescription).2.1.graph
      (ensureLocation w c payload.name payload.mapDescription).1.id =
      some (ensureLocation w c payload.name payload.mapDescription).1 :=
    ensureLocation_result_lookup w c payload.name payload.mapDescription hwf
  have hwf2 : WFG (setGraph (ensureLocation w c payload.name payload.mapDescription).2.1.graph
      (ensureLocation w c payload.name payload.mapDescription).1.id
      (payloadNode (ensureLocation w c payload.name payload.mapDescription).1 payload disc fmd
        (ensureLocation w c payload.name payload.mapDescription).2.2))
      (mergeItems (ensureLocation w c payload.name payload.mapDescription).1.items
        payload.items none (ensureLocation w c payload.name payload.mapDescription).2.2).2 :=
    WFG_setGraph_existing _ (any_of_lookup_some hlook) rfl hwf1
      (mergeItems_counter_mono
        (ensureLocation w c payload.name payload.mapDescription).1.items none payload.items
        (ensureLocation w c payload.name payload.mapDescription).2.2)
  have hinv2 : BidirOK (setGraph
      (ensureLocation w c payload.name payload.mapDescription).2.1.graph
      (ensureLocation w c payload.name payload.mapDescription).1.id
      (payloadNode (ensureLocation w c payload.name payload.mapDescription).1 payload disc fmd
        (ensureLocation w c payload.name payload.mapDescription).2.2)) :=
    BidirOK_setGraph_same_conns hlook rfl hinv1
  have hsrc2 : (lookupGraph
      (setGraph (ensureLocation w c payload.name payload.mapDescription).2.1.graph
        (ensureLocation w c payload.name payload.mapDescription).1.id
        (payloadNode (ensureLocation w c payload.name payload.mapDescription).1 payload disc
          fmd (ensureLocation w c payload.name payload.mapDescription).2.2))
      (ensureLocation w c payload.name payload.mapDescription).1.id).isSome = true := by
    rw [lookupGraph_setGraph_self]
    rfl
  rw [upsertLocationFromPayload_eq]
  obtain ⟨h1, _, h3⟩ := syncExits_good payload
    (ensureLocation w c payload.name payload.mapDescription).1.id
    { (ensureLocation w c payload.name payload.mapDescription).2.1 with
      graph := setGraph (ensureLocation w c payload.name payload.mapDescription).2.1.graph
        (ensureLocation w c payload.name payload.mapDescription).1.id
        (payloadNode (ensureLocation w c payload.name payload.mapDescription).1 payload disc
          fmd (ensureLocation w c payload.name payload.mapDescription).2.2) }
    (mergeItems (ensureLocation w c payload.name payload.mapDescription).1.items
      payload.items none (ensureLocation w c payload.name payload.mapDescription).2.2).2
    hwf2 hsrc2 hinv2
  exact ⟨h1, h3⟩

/-- The `discoveries.forEach` loop preserves well-formedness and the
invariant. -/
theorem applyDiscoveries_good (locs : List LocationPayload) :
    ∀ (w : World) (c : Nat), WFG w.graph c → BidirOK w.graph →
    WFG (applyDiscoveries locs w c).1.graph (applyDiscoveries locs w c).2 ∧
    BidirOK (applyDiscoveries locs w c).1.graph := by
  unfold applyDiscoveries
  induction locs with
  | nil => exact fun w c hwf hinv => ⟨hwf, hinv⟩
  | cons loc rest ih =>
    intro w c hwf hinv
    rw [List.foldl_cons]
    obtain ⟨h1, h2⟩ := upsertLocationFromPayload_good w c loc false none hwf hinv
    exact ih (upsertLocationFromPayload w c loc false none).2.1
      (upsertLocationFromPayload w c loc false none).2.2 h1 h2

/-- C4 claim statement over the source definition: if every
bidirectional connection of the input world has a reverse connection at
its target, the same holds for the world `applyGameTurn` returns (under
the runtime well-formedness of the input graph). -/
theorem applyGameTurn_bidir_invariant (world : World) (character : Character)
    (turn : LLMGameTurn) (playerMessage : String) (isInitial : Bool) (now : String)
    (c : Nat) (hwf : WFG world.graph c) (hinv : BidirOK world.graph) :
    BidirOK (applyGameTurn world character turn playerMessage isInitial now c).1.world.graph := by
  obtain ⟨hp1, hp2⟩ := upsertLocationFromPayload_good world c turn.playerLocation true
    turn.mapDescription hwf hinv
  obtain ⟨hd1, hd2⟩ := applyDiscoveries_good turn.discoveries
    (upsertLocationFromPayload world c turn.playerLocation true turn.mapDescription).2.1
    (upsertLocationFromPayload world c turn.playerLocation true turn.mapDescription).2.2
    hp1 hp2
  unfold applyGameTurn
  dsimp only
  split
  · exact hd2
  · exact hd2

theorem mem_of_getLast?_eq {α} : ∀ {l : List α} {a : α}, l.getLast? = some a → a ∈ l := by
  intro l
  induction l with
  | nil => intro a h; cases h
  | cons b t ih =>
    intro a h
    cases t with
    | nil =>
      simp only [List.getLast?_singleton, Option.some.injEq] at h
      rw [h]
      exact List.mem_singleton_self _
    | cons c ts =>
      rw [List.getLast?_cons_cons] at h
      exact List.mem_cons_of_mem _ (ih h)

theorem getLast?_cons_of_ne_nil {α} {l : List α} (a : α) (h : l ≠ []) :
    (a :: l).getLast? = l.getLast? := by
  cases l with
  | nil => exact absurd rfl h
  | cons b t => exact List.getLast?_cons_cons

/-- Split a list at the last element satisfying a membership test (or
report that none does). -/
theorem split_last_mem {α} [DecidableEq α] (v : List α) :
    ∀ l : List α, (∀ x ∈ l, x ∉ v) ∨
      ∃ x s t, l = s ++ x :: t ∧ x ∈ v ∧ ∀ y ∈ t, y ∉ v := by
  intro l
  induction l using List.reverseRecOn with
  | nil => exact Or.inl (by intro x hx; cases hx)
  | append_singleton l a ih =>
    by_cases ha : a ∈ v
    · exact Or.inr ⟨a, l, [], rfl, ha, by intro y hy; cases hy⟩
    · rcases ih with hclean | ⟨x, s, t, heq, hx, ht⟩
      · left
        intro x hx
        rcases List.mem_append.mp hx with hmem | hmem
        · exact hclean x hmem
        · rw [List.mem_singleton.mp hmem]
          exact ha
      · refine Or.inr ⟨x, s, t ++ [a], by rw [heq]; simp, hx, ?_⟩
        intro y hy
        rcases List.mem_append.mp hy with hmem | hmem
        · exact ht y hmem
        · rw [List.mem_singleton.mp hmem]
          exact ha

/-- Split a list at the first occurrence of an element. -/
theorem first_occ_split {α} [DecidableEq α] (a : α) :
    ∀ l : List α, a ∈ l → ∃ s t, l = s ++ a :: t ∧ a ∉ s := by
  intro l
  induction l with
  | nil => intro h; cases h
  | cons b t ih =>
    intro h
    by_cases hb : b = a
    · exact ⟨[], t, by rw [hb]; rfl, by intro hc; cases hc⟩
    · rcases List.mem_cons.mp h with heq | hmem
      · exact absurd heq.symm hb
      · obtain ⟨s, t', heq, hns⟩ := ih hmem
        refine ⟨b :: s, t', by rw [heq]; rfl, ?_⟩
        intro hc
        rcases List.mem_cons.mp hc with heq' | hmem'
        · exact hb heq'.symm
        · exact hns hmem'

theorem head?_filterMap_all_some {α β} (f : α → Option β) :
    ∀ l : List α, (∀ a ∈ l, (f a).isSome = true) →
    (l.filterMap f).head? = l.head?.bind f := by
  intro l h
  cases l with
  | nil => rfl
  | cons a t =>
    obtain ⟨b, hb⟩ := Option.isSome_iff_exists.mp (h a (List.mem_cons_self _ _))
    rw [List.filterMap_cons, hb]
    dsimp only
    exact hb.symm

theorem getLast?_filterMap_all_some {α β} (f : α → Option β) :
    ∀ l : List α, (∀ a ∈ l, (f a).isSome = true) →
    (l.filterMap f).getLast? = l.getLast?.bind f := by
  intro l
  induction l with
  | nil => intro _; rfl
  | cons a t ih =>
    intro h
    obtain ⟨b, hb⟩ := Option.isSome_iff_exists.mp (h a (List.mem_cons_self _ _))
    cases t with
    | nil =>
      rw [List.filterMap_cons, hb]
      dsimp only
      simp [hb]
    | cons c ts =>
      have hts := ih (fun x hx => h x (List.mem_cons_of_mem _ hx))
      obtain ⟨bc, hbc⟩ := Option.isSome_iff_exists.mp
        (h c (List.mem_cons_of_mem _ (List.mem_cons_self _ _)))
      have hne : (c :: ts).filterMap f ≠ [] := by
        rw [List.filterMap_cons, hbc]
        exact List.cons_ne_nil _ _
      rw [List.filterMap_cons, hb]
      dsimp only
      rw [getLast?_cons_of_ne_nil b hne, hts, List.getLast?_cons_cons]

/-- All nodes along an adjacency chain starting at a present node are
present (on a closed graph). -/
theorem chain_all_present (g : Graph) (hclosed : Closed g) :
    ∀ (l : List Nat) (a : Nat), List.Chain' (Adj g) (a :: l) →
    (lookupGraph g a).isSome = true →
    ∀ x ∈ a :: l, (lookupGraph g x).isSome = true := by
  intro l
  induction l with
  | nil =>
    intro a _ ha x hx
    rw [List.mem_singleton.mp hx]
    exact ha
  | cons b t ih =>
    intro a hchain ha x hx
    obtain ⟨hab, hrest⟩ := List.chain'_cons.mp hchain
    obtain ⟨node, hnode, conn, hconn, htarget⟩ := hab
    have hb : (lookupGraph g b).isSome = true := by
      rw [← htarget]
      exact hclosed (a, node) (lookupGraph_mem hnode) conn hconn
    rcases List.mem_cons.mp hx with rfl | hmem
    · exact ha
    · exact ih b hrest hb x hmem

/-! ### Facts about one BFS expansion step (`routeExpand`) -/
/-- Entries of the expanded queue are old entries or freshly discovered
neighbours of the current entry. -/
theorem routeExpand_queue_mem (toId : Nat) (cur : RouteEntry) :
    ∀ (conns : List Connection) (q : List RouteEntry) (v : List Nat)
      {res : Option (List Nat)} {q' : List RouteEntry} {v' : List Nat},
    routeExpand toId cur conns q v = (res, q', v') →
    ∀ e ∈ q', e ∈ q ∨ ∃ conn ∈ conns,
      e = { id := conn.targetId, path := cur.path ++ [conn.targetId] } := by
  intro conns
  induction conns with
  | nil =>
    intro q v res q' v' h e he
    obtain rfl : q = q' := congrArg (Prod.fst ∘ Prod.snd) h
    exact Or.inl he
  | cons conn rest ih =>
    intro q v res q' v' h e he
    simp only [routeExpand] at h
    by_cases h1 : conn.targetId = toId
    · rw [if_pos h1] at h
      obtain rfl : q = q' := congrArg (Prod.fst ∘ Prod.snd) h
      exact Or.inl he
    · rw [if_neg h1] at h
      by_cases h2 : conn.targetId ∈ v
      · rw [if_pos h2] at h
        rcases ih q v h e he with hq | ⟨c, hc, hec⟩
        · exact Or.inl hq
        · exact Or.inr ⟨c, List.mem_cons_of_mem _ hc, hec⟩
      · rw [if_neg h2] at h
        rcases ih _ _ h e he with hq | ⟨c, hc, hec⟩
        · rcases List.mem_append.mp hq with hmem | hmem
          · exact Or.inl hmem
          · exact Or.inr ⟨conn, List.mem_cons_self _ _, List.mem_singleton.mp hmem⟩
        · exact Or.inr ⟨c, List.mem_cons_of_mem _ hc, hec⟩

/-- The old queue survives an expansion step. -/
theorem routeExpand_queue_sub (toId : Nat) (cur : RouteEntry) :
    ∀ (conns : List Connection) (q : List RouteEntry) (v : List Nat)
      {res : Option (List Nat)} {q' : List RouteEntry} {v' : List Nat},
    routeExpand toId cur conns q v = (res, q', v') →
    ∀ e ∈ q, e ∈ q' := by
  intro conns
  induction conns with
  | nil =>
    intro q v res q' v' h e he
    obtain rfl : q = q' := congrArg (Prod.fst ∘ Prod.snd) h
    exact he
  | cons conn rest ih =>
    intro q v res q' v' h e he
    simp only [routeExpand] at h
    by_cases h1 : conn.targetId = toId
    · rw [if_pos h1] at h
      obtain rfl : q = q' := congrArg (Prod.fst ∘ Prod.snd) h
      exact he
    · rw [if_neg h1] at h
      by_cases h2 : conn.targetId ∈ v
      · rw [if_pos h2] at h
        exact ih q v h e he
      · rw [if_neg h2] at h
        exact ih _ _ h e (List.mem_append_left _ he)

/-- The old visited set survives an expansion step. -/
theorem routeExpand_visited_sub (toId : Nat) (cur : RouteEntry) :
    ∀ (conns : List Connection) (q : List RouteEntry) (v : List Nat)
      {res : Option (List Nat)} {q' : List RouteEntry} {v' : List Nat},
    routeExpand toId cur conns q v = (res, q', v') →
    ∀ x ∈ v, x ∈ v' := by
  intro conns
  induction conns with
  | nil =>
    intro q v res q' v' h x hx
    obtain rfl : v = v' := congrArg (Prod.snd ∘ Prod.snd) h
    exact hx
  | cons conn rest ih =>
    intro q v res q' v' h x hx
    simp only [routeExpand] at h
    by_cases h1 : conn.targetId = toId
    · rw [if_pos h1] at h
      obtain rfl : v = v' := congrArg (Prod.snd ∘ Prod.snd) h
      exact hx
    · rw [if_neg h1] at h
      by_cases h2 : conn.targetId ∈ v
      · rw [if_pos h2] at h
        exact ih q v h x hx
      · rw [if_neg h2] at h
        exact ih _ _ h x (List.mem_append_left _ hx)

/-- If the expansion reports no find, no scanned connection targets the
goal. -/
theorem routeExpand_none_no_target (toId : Nat) (cur : RouteEntry) :
    ∀ (conns : List Connection) (q : List RouteEntry) (v : List Nat)
      {q' : List RouteEntry} {v' : List Nat},
    routeExpand toId cur conns q v = (none, q', v') →
    ∀ conn ∈ conns, conn.targetId ≠ toId := by
  intro conns
  induction conns with
  | nil => intro q v q' v' _ conn hc; cases hc
  | cons conn rest ih =>
    intro q v q' v' h c hc
    simp only [routeExpand] at h
    by_cases h1 : conn.targetId = toId
    · rw [if_pos h1] at h
      cases h
    · rw [if_neg h1] at h
      rcases List.mem_cons.mp hc with rfl | hmem
      · exact h1
      · by_cases h2 : conn.targetId ∈ v
        · rw [if_pos h2] at h
          exact ih q v h c hmem
        · rw [if_neg h2] at h
          exact ih _ _ h c hmem

/-- After a find-free expansion every scanned target is visited. -/
theorem routeExpand_none_targets_visited (toId : Nat) (cur : RouteEntry) :
    ∀ (conns : List Connection) (q : List RouteEntry) (v : List Nat)
      {q' : List RouteEntry} {v' : List Nat},
    routeExpand toId cur conns q v = (none, q', v') →
    ∀ conn ∈ conns, conn.targetId ∈ v' := by
  intro conns
  induction conns with
  | nil => intro q v q' v' _ conn hc; cases hc
  | cons conn rest ih =>
    intro q v q' v' h c hc
    simp only [routeExpand] at h
    by_cases h1 : conn.targetId = toId
    · rw [if_pos h1] at h
      cases h
    · rw [if_neg h1] at h
      by_cases h2 : conn.targetId ∈ v
      · rw [if_pos h2] at h
        rcases List.mem_cons.mp hc with rfl | hmem
        · exact routeExpand_visited_sub toId cur rest q v h _ h2
        · exact ih q v h c hmem
      · rw [if_neg h2] at h
        rcases List.mem_cons.mp hc with rfl | hmem
        · exact routeExpand_visited_sub toId cur rest _ _ h _
            (List.mem_append_right _ (List.mem_singleton_self _))
        · exact ih _ _ h c hmem

/-- Every node visited during a find-free expansion got a queue entry
extending the current path. -/
theorem routeExpand_new_entry (toId : Nat) (cur : RouteEntry) :
    ∀ (conns : List Connection) (q : List RouteEntry) (v : List Nat)
      {q' : List RouteEntry} {v' : List Nat},
    routeExpand toId cur conns q v = (none, q', v') →
    ∀ x ∈ v', x ∉ v →
      ({ id := x, path := cur.path ++ [x] } : RouteEntry) ∈ q' := by
  intro conns
  induction conns with
  | nil =>
    intro q v q' v' h x hx hnx
    obtain rfl : v = v' := congrArg (Prod.snd ∘ Prod.snd) h
    exact absurd hx hnx
  | cons conn rest ih =>
    intro q v q' v' h x hx hnx
    simp only [routeExpand] at h
    by_cases h1 : conn.targetId = toId
    · rw [if_pos h1] at h
      cases h
    · rw [if_neg h1] at h
      by_cases h2 : conn.targetId ∈ v
      · rw [if_pos h2] at h
        exact ih q v h x hx hnx
      · rw [if_neg h2] at h
        by_cases hxc : x = conn.targetId
        · subst hxc
          exact routeExpand_queue_sub toId cur rest _ _ h _
            (List.mem_append_right _ (List.mem_singleton_self _))
        · refine ih _ _ h x hx ?_
          intro hmem
          rcases List.mem_append.mp hmem with hmem' | hmem'
          · exact hnx hmem'
          · exact hxc (List.mem_singleton.mp hmem')

/-- A successful expansion returns the current path extended by the
goal, found along a scanned connection. -/
theorem routeExpand_found (toId : Nat) (cur : RouteEntry) :
    ∀ (conns : List Connection) (q : List RouteEntry) (v : List Nat)
      {p : List Nat} {q' : List RouteEntry} {v' : List Nat},
    routeExpand toId cur conns q v = (some p, q', v') →
    p = cur.path ++ [toId] ∧ ∃ conn ∈ conns, conn.targetId = toId := by
  intro conns
  induction conns with
  | nil => intro q v p q' v' h; cases h
  | cons conn rest ih =>
    intro q v p q' v' h
    simp only [routeExpand] at h
    by_cases h1 : conn.targetId = toId
    · rw [if_pos h1] at h
      obtain hp : some (cur.path ++ [toId]) = some p := congrArg Prod.fst h
      exact ⟨(Option.some_inj.mp hp).symm, conn, List.mem_cons_self _ _, h1⟩
    · rw [if_neg h1] at h
      by_cases h2 : conn.targetId ∈ v
      · rw [if_pos h2] at h
        obtain ⟨hp, c, hc, hct⟩ := ih q v h
        exact ⟨hp, c, List.mem_cons_of_mem _ hc, hct⟩
      · rw [if_neg h2] at h
        obtain ⟨hp, c, hc, hct⟩ := ih _ _ h
        exact ⟨hp, c, List.mem_cons_of_mem _ hc, hct⟩

/-- Expansion keeps the queue-order invariant (relative to the entry
being expanded). -/
theorem routeExpand_QOK (toId : Nat) (cur : RouteEntry) :
    ∀ (conns : List Connection) (q : List RouteEntry) (v : List Nat)
      {res : Option (List Nat)} {q' : List RouteEntry} {v' : List Nat},
    routeExpand toId cur conns q v = (res, q', v') →
    List.Pairwise QRel (cur :: q) → List.Pairwise QRel (cur :: q') := by
  intro conns
  induction conns with
  | nil =>
    intro q v res q' v' h hQ
    obtain rfl : q = q' := congrArg (Prod.fst ∘ Prod.snd) h
    exact hQ
  | cons conn rest ih =>
    intro q v res q' v' h hQ
    simp only [routeExpand] at h
    by_cases h1 : conn.targetId = toId
    · rw [if_pos h1] at h
      obtain rfl : q = q' := congrArg (Prod.fst ∘ Prod.snd) h
      exact hQ
    · rw [if_neg h1] at h
      by_cases h2 : conn.targetId ∈ v
      · rw [if_pos h2] at h
        exact ih q v h hQ
      · rw [if_neg h2] at h
        refine ih _ _ h ?_
        obtain ⟨hcur, hq⟩ := List.pairwise_cons.mp hQ
        rw [List.pairwise_cons]
        constructor
        · intro e he
          rcases List.mem_append.mp he with hmem | hmem
          · exact hcur e hmem
          · rw [List.mem_singleton.mp hmem]
            simp only [List.length_append, List.length_cons, List.length_nil, QRel]
            omega
        · refine List.pairwise_append.mpr ⟨hq, List.pairwise_singleton _ _, ?_⟩
          intro a ha b hb
          rw [List.mem_singleton.mp hb]
          have := hcur a ha
          simp only [List.length_append, List.length_cons, List.length_nil, QRel] at this ⊢
          omega

/-- Extend an adjacency chain by one edge at its end. -/
theorem chain_extend {g : Graph} {l : List Nat} {a b : Nat}
    (hchain : List.Chain' (Adj g) l) (hlast : l.getLast? = some a)
    (hadj : Adj g a b) : List.Chain' (Adj g) (l ++ [b]) := by
  refine List.chain'_append.mpr ⟨hchain, List.chain'_singleton _, ?_⟩
  intro x hx y hy
  have hx' := Option.mem_def.mp hx
  rw [hlast] at hx'
  obtain rfl := Option.some_inj.mp hx'
  have hy' : some b = some y := Option.mem_def.mp hy
  obtain rfl := Option.some_inj.mp hy'
  exact hadj

/-- A discovered neighbour of a chain-invariant entry is itself
chain-invariant. -/
theorem entry_extend {g : Graph} {fromId : Nat} {cur : RouteEntry}
    {node : LocationNode} (hq : EntryFromChain g fromId cur)
    (hN : lookupGraph g cur.id = some node) {conn : Connection}
    (hconn : conn ∈ node.connections) :
    EntryFromChain g fromId
      { id := conn.targetId, path := cur.path ++ [conn.targetId] } := by
  obtain ⟨t0, hpath, hchain, hlast⟩ := hq
  have hadj : Adj g cur.id conn.targetId := ⟨node, hN, conn, hconn, rfl⟩
  refine ⟨t0 ++ [conn.targetId], by rw [hpath]; rfl, ?_, ?_⟩
  · have := chain_extend hchain (by rw [← hpath]; exact hlast) hadj
    simpa using this
  · show (cur.path ++ [conn.targetId]).getLast? = some conn.targetId
    exact List.getLast?_concat _

/-- Soundness of the BFS loop: any returned path is an adjacency chain
from the start to the goal using at most 7 edges. -/
theorem routeLoopF_sound (g : Graph) (toId fromId : Nat) :
    ∀ (fuel : Nat) (queue : List RouteEntry) (visited : List Nat) (p : List Nat),
    (∀ e ∈ queue, EntryFromChain g fromId e) →
    routeLoopF g toId fuel queue visited = some p →
    ∃ t, p = fromId :: t ∧ List.Chain' (Adj g) (fromId :: t) ∧
      t.getLast? = some toId ∧ t.length ≤ 7 := by
  intro fuel
  induction fuel with
  | zero => intro queue visited p _ h; cases h
  | succ fuel ih =>
    intro queue visited p hq h
    cases queue with
    | nil =>
      simp only [routeLoopF] at h
      exact Option.noConfusion h
    | cons cur rest =>
      rw [routeLoopF] at h
      by_cases hskip : cur.path.length > 7
      · rw [if_pos hskip] at h
        exact ih rest visited p (fun e he => hq e (List.mem_cons_of_mem _ he)) h
      · rw [if_neg hskip] at h
        cases hN : lookupGraph g cur.id with
        | none =>
          rw [hN] at h
          dsimp only at h
          exact ih rest visited p (fun e he => hq e (List.mem_cons_of_mem _ he)) h
        | some node =>
          rw [hN] at h
          dsimp only at h
          cases hE : routeExpand toId cur node.connections rest visited with
          | mk found qv =>
            obtain ⟨q', v'⟩ := qv
            rw [hE] at h
            cases found with
            | some p0 =>
              dsimp only at h
              obtain rfl : p0 = p := Option.some_inj.mp h
              obtain ⟨hp0, conn, hconn, htarget⟩ :=
                routeExpand_found toId cur node.connections rest visited hE
              obtain ⟨t0, hpath, hchain, hlast⟩ := hq cur (List.mem_cons_self _ _)
              have hadj : Adj g cur.id toId := ⟨node, hN, conn, hconn, htarget⟩
              refine ⟨t0 ++ [toId], by rw [hp0, hpath]; rfl, ?_, by simp, ?_⟩
              · have := chain_extend hchain (by rw [← hpath]; exact hlast) hadj
                simpa using this
              · have hb : cur.path.length ≤ 7 := Nat.le_of_not_lt hskip
                rw [hpath, List.length_cons] at hb
                simp only [List.length_append, List.length_cons, List.length_nil]
                omega
            | none =>
              dsimp only at h
              refine ih q' v' p ?_ h
              intro e he
              rcases routeExpand_queue_mem toId cur node.connections rest visited hE e he
                with hmem | ⟨conn, hconn, heq⟩
              · exact hq e (List.mem_cons_of_mem _ hmem)
              · rw [heq]
                exact entry_extend (hq cur (List.mem_cons_self _ _)) hN hconn

/-- If no connection targets the goal, an expansion step never finds
it. -/
theorem routeExpand_nofind (toId : Nat) (cur : RouteEntry) :
    ∀ (conns : List Connection) (q : List RouteEntry) (v : List Nat),
    (∀ conn ∈ conns, conn.targetId ≠ toId) →
    (routeExpand toId cur conns q v).1 = none := by
  intro conns
  induction conns with
  | nil => intro q v _; rfl
  | cons conn rest ih =>
    intro q v hno
    have h1 : conn.targetId ≠ toId := hno conn (List.mem_cons_self _ _)
    simp only [routeExpand]
    rw [if_neg h1]
    by_cases h2 : conn.targetId ∈ v
    · rw [if_pos h2]
      exact ih q v (fun c hc => hno c (List.mem_cons_of_mem _ hc))
    · rw [if_neg h2]
      exact ih _ _ (fun c hc => hno c (List.mem_cons_of_mem _ hc))

/-- If no node of the graph has a connection targeting the goal, the
BFS loop never succeeds. -/
theorem routeLoopF_no_target (g : Graph) (toId : Nat)
    (hiso : ∀ kv ∈ g, ∀ conn ∈ kv.2.connections, conn.targetId ≠ toId) :
    ∀ (fuel : Nat) (queue : List RouteEntry) (visited : List Nat),
    routeLoopF g toId fuel queue visited = none := by
  intro fuel
  induction fuel with
  | zero => intro q v; rfl
  | succ fuel ih =>
    intro q v
    cases q with
    | nil => rfl
    | cons cur rest =>
      rw [routeLoopF]
      by_cases hskip : cur.path.length > 7
      · rw [if_pos hskip]
        exact ih rest v
      · rw [if_neg hskip]
        cases hN : lookupGraph g cur.id with
        | none =>
          dsimp only
          exact ih rest v
        | some node =>
          dsimp only
          cases hE : routeExpand toId cur node.connections rest v with
          | mk found qv =>
            obtain ⟨q', v'⟩ := qv
            cases found with
            | some p =>
              exfalso
              have hno : ∀ conn ∈ node.connections, conn.targetId ≠ toId :=
                fun conn hconn => hiso (cur.id, node) (lookupGraph_mem hN) conn hconn
              have := routeExpand_nofind toId cur node.connections rest v hno
              rw [hE] at this
              cases this
            | none =>
              dsimp only
              exact ih q' v'

/-- Completeness of the BFS loop: while a witness extension within the
depth budget exists, the loop succeeds. -/
theorem routeLoopF_complete (g : Graph) (toId : Nat) :
    ∀ (fuel : Nat) (queue : List RouteEntry) (visited : List Nat),
    queue.length + unseenCount g visited < fuel →
    QOK queue → RouteWitness g toId queue visited →
    (routeLoopF g toId fuel queue visited).isSome = true := by
  intro fuel
  induction fuel using Nat.strong_induction_on with
  | _ fuel ih =>
    intro queue visited hfuel hQ hW
    match fuel, queue with
    | 0, _ => exact absurd hfuel (Nat.not_lt_zero _)
    | fuel + 1, [] =>
      obtain ⟨e, he, _⟩ := hW
      cases he
    | fuel + 1, cur :: rest =>
      obtain ⟨e, he, p, hchain, hlast, htnp, hclean, hbudget⟩ := hW
      have hpne : p ≠ [] := by
        intro hnil
        rw [hnil] at hlast
        cases hlast
      have hplen : 1 ≤ p.length := List.length_pos.mpr hpne
      have hcur_le : cur.path.length ≤ e.path.length := by
        rcases List.mem_cons.mp he with rfl | hmem
        · exact le_refl _
        · exact ((List.pairwise_cons.mp hQ).1 e hmem).1
      rw [List.length_cons] at hfuel
      rw [routeLoopF]
      by_cases hskip : cur.path.length > 7
      · exfalso
        omega
      · rw [if_neg hskip]
        cases hN : lookupGraph g cur.id with
        | none =>
          dsimp only
          have hemem : e ∈ rest := by
            rcases List.mem_cons.mp he with rfl | hmem
            · exfalso
              cases p with
              | nil => exact hpne rfl
              | cons p1 pr =>
                obtain ⟨hadj, _⟩ := List.chain'_cons.mp hchain
                obtain ⟨node, hnode, _⟩ := hadj
                rw [hN] at hnode
                cases hnode
            · exact hmem
          exact ih fuel (Nat.lt_succ_self _) rest visited (by omega)
            (List.pairwise_cons.mp hQ).2
            ⟨e, hemem, p, hchain, hlast, htnp, hclean, hbudget⟩
        | some node =>
          dsimp only
          cases hE : routeExpand toId cur node.connections rest visited with
          | mk found qv =>
            obtain ⟨q', v'⟩ := qv
            cases found with
            | some p0 => rfl
            | none =>
              dsimp only
              have hm := routeExpand_measure g toId cur node.connections rest visited
                q' v' (targets_mem_of_lookup g cur.id node hN) hE
              refine ih fuel (Nat.lt_succ_self _) q' v' (by omega) ?_ ?_
              · exact (List.pairwise_cons.mp
                  (routeExpand_QOK toId cur node.connections rest visited hE hQ)).2
              · rcases split_last_mem v' p.dropLast with hcleanall |
                  ⟨x, s, t, hsplit, hxv, htclean⟩
                · have hemem : e ∈ rest := by
                    rcases List.mem_cons.mp he with rfl | hmem
                    · exfalso
                      cases p with
                      | nil => exact hpne rfl
                      | cons p1 pr =>
                        obtain ⟨hadj, _⟩ := List.chain'_cons.mp hchain
                        obtain ⟨node0, hnode0, conn, hconn, htarget⟩ := hadj
                        rw [hN] at hnode0
                        obtain rfl := Option.some_inj.mp hnode0
                        have hp1v : p1 ∈ v' := by
                          rw [← htarget]
                          exact routeExpand_none_targets_visited toId e
                            node.connections rest visited hE conn hconn
                        have hp1ne : p1 ≠ toId := by
                          rw [← htarget]
                          exact routeExpand_none_no_target toId e
                            node.connections rest visited hE conn hconn
                        have hprne : pr ≠ [] := by
                          intro hnil
                          rw [hnil] at hlast
                          simp only [List.getLast?_singleton, Option.some.injEq] at hlast
                          exact hp1ne hlast
                        have hp1d : p1 ∈ (p1 :: pr).dropLast := by
                          cases pr with
                          | nil => exact absurd rfl hprne
                          | cons a b =>
                            rw [List.dropLast_cons₂]
                            exact List.mem_cons_self _ _
                        exact (hcleanall p1 hp1d) hp1v
                    · exact hmem
                  exact ⟨e, routeExpand_queue_sub toId cur node.connections rest
                    visited hE e hemem, p, hchain, hlast, htnp, hcleanall, hbudget⟩
                · have hxd : x ∈ p.dropLast := by
                    rw [hsplit]
                    exact List.mem_append_right _ (List.mem_cons_self _ _)
                  have hxnv : x ∉ visited := hclean x hxd
                  have hentry := routeExpand_new_entry toId cur node.connections rest
                    visited hE x hxv hxnv
                  have hgl : p.getLast hpne = toId := by
                    have h0 := List.getLast?_eq_getLast p hpne
                    rw [hlast] at h0
                    exact (Option.some_inj.mp h0).symm
                  have hpdecomp : p = p.dropLast ++ [toId] := by
                    rw [← hgl]
                    exact (List.dropLast_append_getLast hpne).symm
                  refine ⟨{ id := x, path := cur.path ++ [x] }, hentry,
                    t ++ [toId], ?_, List.getLast?_concat _, ?_, ?_, ?_⟩
                  · have hh : e.id :: p = (e.id :: s) ++ (x :: (t ++ [toId])) := by
                      rw [hpdecomp, hsplit]
                      simp
                    have hc2 := hchain
                    rw [hh] at hc2
                    exact (List.chain'_append.mp hc2).2.1
                  · rw [List.dropLast_concat]
                    intro hc
                    exact htnp (by
                      rw [hsplit]
                      exact List.mem_append_right _ (List.mem_cons_of_mem _ hc))
                  · rw [List.dropLast_concat]
                    exact htclean
                  · have hplen2 : s.length + t.length + 2 ≤ p.length := by
                      conv_rhs => rw [hpdecomp, hsplit]
                      simp only [List.length_append, List.length_cons, List.length_nil]
                      omega
                    simp only [List.length_append, List.length_cons, List.length_nil]
                    omega

/-- The start state of the BFS carries a completeness witness whenever
an adjacency chain of at most 7 edges connects the endpoints. -/
theorem initial_witness (g : Graph) (fromId toId : Nat)
    (p : List Nat) (hchain : List.Chain' (Adj g) (fromId :: p))
    (hlast : p.getLast? = some toId) (hlen : p.length ≤ 7) :
    RouteWitness g toId [{ id := fromId, path := [fromId] }] [fromId] := by
  have hmem : toId ∈ p := mem_of_getLast?_eq hlast
  obtain ⟨pre, post, hsplit, hnpre⟩ := first_occ_split toId p hmem
  have hchain2 : List.Chain' (Adj g) (fromId :: (pre ++ [toId])) := by
    have hh : fromId :: p = (fromId :: (pre ++ [toId])) ++ post := by
      rw [hsplit]
      simp
    have hc2 := hchain
    rw [hh] at hc2
    exact (List.chain'_append.mp hc2).1
  have hlen2 : pre.length + 1 ≤ p.length := by
    conv_rhs => rw [hsplit]
    simp only [List.length_append, List.length_cons]
    omega
  rcases split_last_mem [fromId] pre with hcleanpre | ⟨x, s, t, hps, hxv, htclean⟩
  · refine ⟨_, List.mem_singleton_self _, pre ++ [toId], hchain2,
      List.getLast?_concat _, ?_, ?_, ?_⟩
    · rw [List.dropLast_concat]
      exact hnpre
    · rw [List.dropLast_concat]
      exact hcleanpre
    · simp only [List.length_cons, List.length_append, List.length_nil]
      omega
  · obtain rfl := (List.mem_singleton.mp hxv).symm
    refine ⟨_, List.mem_singleton_self _, t ++ [toId], ?_,
      List.getLast?_concat _, ?_, ?_, ?_⟩
    · have hh : fromId :: (pre ++ [toId]) =
          (fromId :: s) ++ (fromId :: (t ++ [toId])) := by
        rw [hps]
        simp
      have hc2 := hchain2
      rw [hh] at hc2
      exact (List.chain'_append.mp hc2).2.1
    · rw [List.dropLast_concat]
      intro hc
      exact hnpre (by
        rw [hps]
        exact List.mem_append_right _ (List.mem_cons_of_mem _ hc))
    · rw [List.dropLast_concat]
      exact htclean
    · have hpl : s.length + t.length + 1 ≤ pre.length := by
        conv_rhs => rw [hps]
        simp only [List.length_append, List.length_cons]
        omega
      simp only [List.length_cons, List.length_append, List.length_nil]
      omega

/-- C3 (amended) claim statement over the source definition: on a graph
whose keys carry their own node ids and whose connection targets are all
present, with both endpoints stored, a successful `getRoute` returns a
path starting at the source and ending at the target whose reported
distance is `path.length - 1`; a self-query always reports success at
distance 0; and a query from a different node to a node with no incoming
connection reports failure. -/
theorem getRoute_spec (g : Graph) (fromId toId : Nat) (hKC : KeyConsistent g)
    (hclosed : Closed g) (hfrom : (lookupGraph g fromId).isSome = true)
    (hto : (lookupGraph g toId).isSome = true) :
    ((getRoute fromId toId g).pathExists = true →
      (getRoute fromId toId g).path.head?.map LocationInfo.id = some fromId ∧
      (getRoute fromId toId g).path.getLast?.map LocationInfo.id = some toId ∧
      (getRoute fromId toId g).totalDistance =
        (getRoute fromId toId g).path.length - 1) ∧
    ((getRoute fromId fromId g).pathExists = true ∧
      (getRoute fromId fromId g).totalDistance = 0) ∧
    (fromId ≠ toId → (∀ kv ∈ g, ∀ conn ∈ kv.2.connections, conn.targetId ≠ toId) →
      (getRoute fromId toId g).pathExists = false) := by
  obtain ⟨nodeF, hnf⟩ := Option.isSome_iff_exists.mp hfrom
  have hidF : nodeF.id = fromId := hKC (fromId, nodeF) (lookupGraph_mem hnf)
  refine ⟨?_, ?_, ?_⟩
  · intro hex
    by_cases hft : fromId = toId
    · subst hft
      unfold getRoute
      rw [if_pos rfl, hnf]
      dsimp only
      refine ⟨?_, ?_, ?_⟩
      · simp [mkLocationInfo, hidF]
      · simp [mkLocationInfo, hidF]
      · simp
    · obtain ⟨nodeT, hnt⟩ := Option.isSome_iff_exists.mp hto
      have hidT : nodeT.id = toId := hKC (toId, nodeT) (lookupGraph_mem hnt)
      unfold getRoute at hex ⊢
      rw [if_neg hft] at hex ⊢
      cases hL : routeLoop g toId [{ id := fromId, path := [fromId] }] [fromId] with
      | none =>
        rw [hL] at hex
        simp at hex
      | some fullPath =>
        dsimp only
        have hstart : ∀ e ∈ [({ id := fromId, path := [fromId] } : RouteEntry)],
            EntryFromChain g fromId e := by
          intro e he
          rw [List.mem_singleton.mp he]
          exact ⟨[], rfl, List.chain'_singleton _, by simp⟩
        obtain ⟨t, hp, hchain, hlast, hlen⟩ :=
          routeLoopF_sound g toId fromId _ _ _ fullPath hstart hL
        have hpres : ∀ x ∈ fullPath, (lookupGraph g x).isSome = true := by
          rw [hp]
          exact chain_all_present g hclosed t fromId hchain hfrom
        have htne : t ≠ [] := by
          intro h0
          rw [h0] at hlast
          cases hlast
        have hfh : fullPath.head? = some fromId := by rw [hp]; rfl
        have hfl : fullPath.getLast? = some toId := by
          rw [hp, getLast?_cons_of_ne_nil fromId htne]
          exact hlast
        refine ⟨?_, ?_, ?_⟩
        · rw [List.head?_map, head?_filterMap_all_some _ _ hpres, hfh,
            Option.some_bind, hnf]
          simp [mkLocationInfo, hidF]
        · rw [List.getLast?_map, getLast?_filterMap_all_some _ _ hpres, hfl,
            Option.some_bind, hnt]
          simp [mkLocationInfo, hidT]
        · rw [List.length_map, filterMap_length_all_some _ _ hpres]
  · unfold getRoute
    rw [if_pos rfl, hnf]
    exact ⟨rfl, rfl⟩
  · intro hft hiso
    unfold getRoute
    rw [if_neg hft]
    have hnone : routeLoop g toId [{ id := fromId, path := [fromId] }] [fromId]
        = none := routeLoopF_no_target g toId hiso _ _ _
    rw [hnone]

/-- The C3 theorem applied to the three-node chain world at its
endpoints (all hypotheses checked by evaluation). -/
theorem getRoute_spec_witness :
    (KeyConsistent cexWorldC1.graph ∧ Closed cexWorldC1.graph ∧
      (lookupGraph cexWorldC1.graph 0).isSome = true ∧
      (lookupGraph cexWorldC1.graph 2).isSome = true) ∧
    (((getRoute 0 2 cexWorldC1.graph).pathExists = true →
      (getRoute 0 2 cexWorldC1.graph).path.head?.map LocationInfo.id = some 0 ∧
      (getRoute 0 2 cexWorldC1.graph).path.getLast?.map LocationInfo.id = some 2 ∧
      (getRoute 0 2 cexWorldC1.graph).totalDistance =
        (getRoute 0 2 cexWorldC1.graph).path.length - 1) ∧
    ((getRoute 0 0 cexWorldC1.graph).pathExists = true ∧
      (getRoute 0 0 cexWorldC1.graph).totalDistance = 0) ∧
    ((0 : Nat) ≠ 2 → (∀ kv ∈ cexWorldC1.graph, ∀ conn ∈ kv.2.connections,
        conn.targetId ≠ 2) →
      (getRoute 0 2 cexWorldC1.graph).pathExists = false)) :=
  ⟨⟨by decide, by decide, by decide, by decide⟩,
   getRoute_spec cexWorldC1.graph 0 2 (by decide) (by decide) (by decide) (by decide)⟩

/-- C8 claim statement over the source definition: for distinct
endpoints, `getRoute` succeeds exactly when an adjacency chain of at
most 7 edges connects them — searches bounded deeper than 7 hops fail,
routes within 7 hops are always found, and the loop itself is modelled
as terminating on every graph (`routeLoopF_congr` shows the fueled loop
is fuel-independent beyond the decreasing measure). -/
theorem getRoute_bounded_complete (g : Graph) (fromId toId : Nat)
    (hne : fromId ≠ toId) :
    ((getRoute fromId toId g).pathExists = true ↔
      ∃ p : List Nat, List.Chain' (Adj g) (fromId :: p) ∧
        p.getLast? = some toId ∧ p.length ≤ 7) := by
  unfold getRoute
  rw [if_neg hne]
  cases hL : routeLoop g toId [{ id := fromId, path := [fromId] }] [fromId] with
  | some fullPath =>
    dsimp only
    constructor
    · intro _
      have hstart : ∀ e ∈ [({ id := fromId, path := [fromId] } : RouteEntry)],
          EntryFromChain g fromId e := by
        intro e he
        rw [List.mem_singleton.mp he]
        exact ⟨[], rfl, List.chain'_singleton _, by simp⟩
      obtain ⟨t, hp, hchain, hlast, hlen⟩ :=
        routeLoopF_sound g toId fromId _ _ _ fullPath hstart hL
      exact ⟨t, hchain, hlast, hlen⟩
    · intro _
      rfl
  | none =>
    dsimp only
    constructor
    · intro h
      exact absurd h (by simp)
    · rintro ⟨p, hchain, hlast, hlen⟩
      exfalso
      have hW := initial_witness g fromId toId p hchain hlast hlen
      have hc : (routeLoop g toId [{ id := fromId, path := [fromId] }]
          [fromId]).isSome = true :=
        routeLoopF_complete g toId _ _ _ (Nat.lt_succ_self _)
          (List.pairwise_singleton _ _) hW
      rw [hL] at hc
      simp at hc

/-- The C8 theorem applied to the three-node chain world (the
hypothesis checked by evaluation). -/
theorem getRoute_bounded_complete_witness :
    (0 : Nat) ≠ 2 ∧
    ((getRoute 0 2 cexWorldC1.graph).pathExists = true ↔
      ∃ p : List Nat, List.Chain' (Adj cexWorldC1.graph) (0 :: p) ∧
        p.getLast? = some 2 ∧ p.length ≤ 7) :=
  ⟨by decide, getRoute_bounded_complete cexWorldC1.graph 0 2 (by decide)⟩

theorem applyGameTurn_bidir_invariant_witness :
    (WFG witWorld.graph 1 ∧ BidirOK witWorld.graph) ∧
    BidirOK (applyGameTurn witWorld witChar witTurn "" true "t1" 1).1.world.graph :=
  ⟨⟨by decide, by decide⟩,
   applyGameTurn_bidir_invariant witWorld witChar witTurn "" true "t1" 1
     (by decide) (by decide)⟩

/-- The C1 theorem applied to the two-node world (no indirect path, so
nothing is skipped); every hypothesis is checked by evaluation. -/
theorem syncExits_bidirectional_repair_witness :
    (cexPayloadC1.exits = [cexExitC1] ∧ WFG cexWorldC2.graph 10 ∧
      (lookupGraph cexWorldC2.graph 0).isSome = true ∧
      cexExitC1.bidirectional.getD true = true ∧
      hasPath (ensureLocation cexWorldC2 10 cexExitC1.name none).2.1.graph 0
        (ensureLocation cexWorldC2 10 cexExitC1.name none).1.id 2 = false) ∧
    ((∃ node, lookupGraph (syncExits cexWorldC2 10 0 cexPayloadC1).1.graph 0 =
        some node ∧ ∃ conn ∈ node.connections,
        conn.targetId = (ensureLocation cexWorldC2 10 cexExitC1.name none).1.id) ∧
     (∃ node, lookupGraph (syncExits cexWorldC2 10 0 cexPayloadC1).1.graph
          (ensureLocation cexWorldC2 10 cexExitC1.name none).1.id = some node ∧
        ∃ conn ∈ node.connections, conn.targetId = 0)) :=
  ⟨⟨by decide, by decide, by decide, by decide, by decide⟩,
   syncExits_bidirectional_repair cexWorldC2 10 0 cexPayloadC1 cexExitC1
     (by decide) (by decide) (by decide) (by decide) (by decide)⟩

/-- The C2 theorem applied to the two-node world with the blank-label
exit descriptor; every hypothesis is checked by evaluation. -/
theorem syncExits_blank_label_witness :
    (cexPayloadC2.exits = [cexExitC2] ∧ WFG cexWorldC2.graph 10 ∧
      lookupGraph cexWorldC2.graph 0 = some cexNodeC2 ∧
      cexNodeC2.connections = [] ++ cexConnC2 :: [] ∧
      (∀ x ∈ ([] : List Connection),
        x.targetId ≠ (ensureLocation cexWorldC2 10 cexExitC2.name none).1.id) ∧
      cexConnC2.targetId = (ensureLocation cexWorldC2 10 cexExitC2.name none).1.id ∧
      (cexExitC2.label.map trimStr).getD "" = "" ∧
      hasPath (ensureLocation cexWorldC2 10 cexExitC2.name none).2.1.graph 0
        (ensureLocation cexWorldC2 10 cexExitC2.name none).1.id 2 = false) ∧
    (∃ node, lookupGraph (syncExits cexWorldC2 10 0 cexPayloadC2).1.graph 0 =
        some node ∧
      node.connections = [] ++ { cexConnC2 with
        label := some DEFAULT_EXIT_LABEL,
        bidirectional := cexConnC2.bidirectional ||
          cexExitC2.bidirectional.getD true } :: []) :=
  ⟨⟨by decide, by decide, by decide, by decide, by decide, by decide, by decide,
    by decide⟩,
   syncExits_blank_label cexWorldC2 10 0 cexPayloadC2 cexExitC2 cexNodeC2 [] cexConnC2 []
     (by decide) (by decide) (by decide) (by decide) (by decide) (by decide)
     (by decide) (by decide)⟩

/-- The C5 theorem applied to the two-node world with the name `"b"`
(resolved by name identity); the well-formedness hypothesis is checked
by evaluation. -/
theorem ensureLocation_resolution_witness :
    WFG cexWorldC2.graph 10 ∧
    (let r := ensureLocation cexWorldC2 10 "b" none
     (∀ kv ∈ cexWorldC2.graph, kv ∈ r.2.1.graph) ∧
     ((∃ loc ∈ Graph.values cexWorldC2.graph,
        normalize loc.locationName = normalize "b") →
       r.2.1 = cexWorldC2 ∧ r.2.2 = 10 ∧ r.1 ∈ Graph.values cexWorldC2.graph ∧
       normalize r.1.locationName = normalize "b") ∧
     ((∀ loc ∈ Graph.values cexWorldC2.graph,
        normalize loc.locationName ≠ normalize "b") →
       ∀ h, (none : Option String) = some h → normalize h ≠ "" →
       (∃ loc ∈ Graph.values cexWorldC2.graph, descMatches (normalize h) loc) →
       r.2.1 = cexWorldC2 ∧ r.2.2 = 10 ∧ r.1 ∈ Graph.values cexWorldC2.graph ∧
       descMatches (normalize h) r.1) ∧
     ((∀ loc ∈ Graph.values cexWorldC2.graph,
        normalize loc.locationName ≠ normalize "b") →
       (∀ h, (none : Option String) = some h → normalize h ≠ "" →
         ∀ loc ∈ Graph.values cexWorldC2.graph, ¬descMatches (normalize h) loc) →
       r.1 = freshNode 10 "b" ∧
       r.2.1.graph = cexWorldC2.graph ++ [(10, freshNode 10 "b")] ∧ r.2.2 = 10 + 1)) :=
  ⟨by decide, ensureLocation_resolution cexWorldC2 10 "b" none (by decide)⟩

/-- The C6 theorem applied to a one-item inventory and a descriptor
differing only in case and whitespace; the freshness hypothesis is
checked by evaluation. -/
theorem mergeItems_spec_witness :
    (∀ it ∈ [witItem], it.id < 10) ∧
    (let r := mergeItems [witItem] [witDesc] (some 60) 10
     r.1.length = [witDesc].length ∧
     (∀ (i : Nat) (d : ItemDescriptor), [witDesc][i]? = some d →
       ∃ item, r.1[i]? = some item ∧
         item.name = d.name ∧
         item.ownerCharacterId = some 60 ∧
         ((∃ ex ∈ [witItem],
             normalize ex.name = normalize d.name ∧ item.id = ex.id) ∨
          ((∀ ex ∈ [witItem], normalize ex.name ≠ normalize d.name) ∧
           10 ≤ item.id ∧ (∀ ex ∈ [witItem], item.id ≠ ex.id)))) ∧
     (∀ it ∈ [witItem],
       (∀ d ∈ [witDesc], normalize d.name ≠ normalize it.name) → it ∉ r.1)) :=
  ⟨by decide, mergeItems_spec [witItem] [witDesc] (some 60) 10 (by decide)⟩

/-- The C10 theorem applied to a whitespace query over a one-node graph;
the blank-query hypothesis is checked by evaluation. -/
theorem findLocationByName_blank_query_witness :
    trimStr (toLowerStr "  ") = "" ∧
    ((∀ loc ∈ Graph.values [(0, cexLocC9)],
      scoreLocation (trimStr (toLowerStr "  ")) loc =
        if toLowerStr loc.locationName = "" then 1 else (9 : ℚ)/10) ∧
    (findLocationByName "  " [(0, cexLocC9)]).length =
      min 5 ([(0, cexLocC9)] : Graph).length ∧
    (∀ m ∈ findLocationByName "  " [(0, cexLocC9)], (9 : ℚ)/10 ≤ m.similarity)) :=
  ⟨by decide, findLocationByName_blank_query "  " [(0, cexLocC9)] (by decide)⟩

end WorldExplorer

